import Mathlib

/-!
Foosball team picker: shuffle, pairing and reveal scheduler.

A shallow embedding of `src/App.jsx`: the Fisher-Yates shuffle `shuffleArray`,
the splitter `chunk`, and the component state of `FoosballTeamPicker` together
with the two host timers (`setTimeout` / `setInterval`) that drive the reveal.

Conventions.
* JavaScript arrays are lists; array indices and lengths are natural numbers.
* `Math.floor(Math.random() * (i + 1))` is an index the environment chooses; the
  shuffle receives these choices as a function `rnd`, where `rnd i` is the value
  drawn in the loop iteration with loop variable `i`.
* Time is a natural number of milliseconds; a timer fires exactly when it is due.
-/

namespace Foosball

/-! ## Pure helpers (lines 5-20 of `App.jsx`) -/

/-- The constant `DEFAULT_PLAYERS`. -/
def DEFAULT_PLAYERS : List String := ["Joachim", "Edis", "Amalie", "Åshild"]

/-- The destructuring assignment `[a[i], a[j]] = [a[j], a[i]]`: the right-hand side is
read first, then `a[i]` and `a[j]` are written in that order. An index outside the array
would make JavaScript read `undefined` and grow the array; that leaves the lists of
names, and the result is `none`. -/
def swap {α : Type} (a : List α) (i j : Nat) : Option (List α) :=
  match a[i]?, a[j]? with
  | some x, some y => some ((a.set i y).set j x)
  | _, _ => none

/-- The loop `for (let i = a.length - 1; i > 0; i--)` of `shuffleArray`, entered with
loop variable `i` and array `a`; `rnd i` is the index `j` drawn at iteration `i`. -/
def shuffleLoop {α : Type} (rnd : Nat → Nat) : Nat → List α → Option (List α)
  | 0, a => some a
  | i + 1, a => (swap a (i + 1) (rnd (i + 1))).bind (shuffleLoop rnd i)

/-- The function `shuffleArray(arr)`: copy, then run the loop from the last index. -/
def shuffleArray {α : Type} (rnd : Nat → Nat) (arr : List α) : Option (List α) :=
  shuffleLoop rnd (arr.length - 1) arr

/-- The draws `Math.floor(Math.random() * (i + 1))` lie in `0 .. i`: this holds at every
loop index below `n`. -/
def ValidDraws (rnd : Nat → Nat) (n : Nat) : Prop := ∀ i, i < n → rnd i ≤ i

/-- The sequences of draws for an array of length `n`: one index `j ≤ i` for each loop
index `i = 1, ..., n - 1` (component `k` is the draw at loop index `k + 1`). -/
abbrev IndexSeq (n : Nat) : Type := (k : Fin (n - 1)) → Fin (k.val + 2)

/-- A sequence of draws as the function the shuffle reads. -/
def IndexSeq.toRnd {n : Nat} (js : IndexSeq n) : Nat → Nat :=
  fun i => if h : 0 < i ∧ i < n then (js ⟨i - 1, by omega⟩).val else 0

/-- The call `arr.slice(start, stop)` for indices that are not negative. -/
def slice {α : Type} (arr : List α) (start stop : Nat) : List α :=
  (arr.drop start).take (stop - start)

/-- The call `arr.slice(start)` for an index that is not negative. -/
def sliceFrom {α : Type} (arr : List α) (start : Nat) : List α :=
  arr.drop start

/-- The loop `for (let i = 0; i < arr.length; i += size) out.push(arr.slice(i, i + size))`
of `chunk`, with a bound on the number of iterations: `none` when the bound is used up
while the loop condition still holds (with `size = 0` the loop never ends). -/
def chunkLoop {α : Type} (arr : List α) (size : Nat) :
    Nat → Nat → List (List α) → Option (List (List α))
  | 0, i, out => if i < arr.length then none else some out
  | fuel + 1, i, out =>
    if i < arr.length then
      chunkLoop arr size fuel (i + size) (out ++ [slice arr i (i + size)])
    else some out

/-- The function `chunk(arr, size)`; `arr.length` iterations suffice whenever `size ≥ 1`. -/
def chunk {α : Type} (arr : List α) (size : Nat) : Option (List (List α)) :=
  chunkLoop arr size arr.length 0 []

/-! ## Component state and host timers (lines 156-254 of `App.jsx`) -/

/-- The two closures that `drawTeams` hands to the host. `stage total` is the callback of
the `setTimeout` at line 240; `tick total i` is the callback of the `setInterval` at
line 244 together with the current value of its captured counter `i`. -/
inductive Callback
  | stage (total : Nat)
  | tick (total : Nat) (i : Nat)
  deriving DecidableEq

/-- A pending timer of the host: its handle, the time it is due, its period when it
repeats (`none` for a timeout) and its callback. -/
structure Timer where
  id : Nat
  due : Nat
  period : Option Nat
  cb : Callback
  deriving DecidableEq

/-- The state of `FoosballTeamPicker` that the draw reads or writes, the two refs, and the
part of the host the refs point into: the pending timers, the next timer handle and the
clock. -/
structure State where
  players : List String
  isDrawing : Bool
  revealIndex : Int
  teams : List (List String)
  waiting : List String
  stageTimeoutRef : Option Nat
  stepIntervalRef : Option Nat
  timers : List Timer
  nextId : Nat
  now : Nat
  deriving DecidableEq

/-- The state after the first render: the `useState` and `useRef` initial values, no
pending timer. Timer handles are positive integers. -/
def initialState : State :=
  { players := DEFAULT_PLAYERS, isDrawing := false, revealIndex := -1, teams := [],
    waiting := [], stageTimeoutRef := none, stepIntervalRef := none, timers := [],
    nextId := 1, now := 0 }

/-- The derived value `canDraw = players.length >= 2`. -/
def canDraw (players : List String) : Bool := decide (players.length ≥ 2)

/-- Truthiness of a ref that holds `null` or a timer handle: `if (ref.current)`. -/
def truthy : Option Nat → Bool
  | none => false
  | some id => id != 0

/-- The host call `setTimeout(cb, delay)`: returns the new handle. -/
def setTimeout (cb : Callback) (delay : Nat) (s : State) : Nat × State :=
  (s.nextId,
   { s with timers := s.timers ++ [{ id := s.nextId, due := s.now + delay, period := none, cb := cb }],
            nextId := s.nextId + 1 })

/-- The host call `setInterval(cb, delay)`: returns the new handle. -/
def setInterval (cb : Callback) (delay : Nat) (s : State) : Nat × State :=
  (s.nextId,
   { s with timers := s.timers ++ [{ id := s.nextId, due := s.now + delay, period := some delay, cb := cb }],
            nextId := s.nextId + 1 })

/-- The host call `clearTimeout(id)`: the timer with that handle, if any, is dropped. -/
def clearTimeout (id : Nat) (s : State) : State :=
  { s with timers := s.timers.filter (fun t => t.id != id) }

/-- The host call `clearInterval(id)`; it shares the handle space with `clearTimeout`. -/
def clearInterval (id : Nat) (s : State) : State :=
  { s with timers := s.timers.filter (fun t => t.id != id) }

/-- The function `clearTimers()` (lines 209-218). -/
def clearTimers (s : State) : State :=
  let s1 :=
    match s.stageTimeoutRef with
    | some id => if truthy (some id) then { clearTimeout id s with stageTimeoutRef := none } else s
    | none => s
  match s1.stepIntervalRef with
  | some id => if truthy (some id) then { clearInterval id s1 with stepIntervalRef := none } else s1
  | none => s1

/-- The constant `spinMs = Math.min(1800, 800 + total * 250)` of `drawTeams`. -/
def spinMs (total : Nat) : Nat := min 1800 (800 + total * 250)

/-- The function `drawTeams()` (lines 220-254) as the closure of a render that saw the
roster `players`; `none` stands for a call that does not return. -/
def drawTeams (rnd : Nat → Nat) (players : List String) (s : State) : Option State :=
  if !canDraw players then some s
  else
    let s1 := clearTimers s
    match shuffleArray rnd players with
    | none => none
    | some order =>
      match chunk (slice order 0 (order.length / 2 * 2)) 2 with
      | none => none
      | some pairs =>
        let extras := sliceFrom order (order.length / 2 * 2)
        let s2 := { s1 with teams := pairs, waiting := extras, isDrawing := true, revealIndex := -1 }
        let total := pairs.length
        let r := setTimeout (Callback.stage total) (spinMs total) s2
        some { r.2 with stageTimeoutRef := some r.1 }

/-- The body of a timer callback, run on the state the host passes in. For `tick` the
stored counter is the value before the statement `i++`. -/
def runCallback : Callback → State → State
  | Callback.stage total, s =>
    let s1 := { s with revealIndex := 0 }
    let r := setInterval (Callback.tick total 0) 900 s1
    { r.2 with stepIntervalRef := some r.1 }
  | Callback.tick total i, s =>
    if i + 1 ≥ total then { clearTimers s with isDrawing := false }
    else { s with revealIndex := ((i + 1 : Nat) : Int) }

/-- The captured variables of a callback after one run: `tick` has executed `i++`. -/
def advanceClosure : Callback → Callback
  | Callback.stage total => Callback.stage total
  | Callback.tick total i => Callback.tick total (i + 1)

/-- What the host does with a timer at the moment it fires, before the callback runs: a
timeout leaves the table, an interval is armed again one period later. -/
def reschedule (t : Timer) (s : State) : State :=
  match t.period with
  | none => { s with timers := s.timers.filter (fun u => u.id != t.id) }
  | some p =>
    { s with timers := s.timers.map (fun u =>
        if u.id = t.id then { u with due := t.due + p, cb := advanceClosure t.cb } else u) }

/-- The host fires timer `t`: the clock reaches its due time, the table is updated and the
callback runs. -/
def fire (t : Timer) (s : State) : State :=
  runCallback t.cb (reschedule t { s with now := max s.now t.due })

/-- The pending timer that fires next: the earliest due, the older one on a tie. -/
def nextTimer : List Timer → Option Timer
  | [] => none
  | t :: ts =>
    match nextTimer ts with
    | none => some t
    | some u => if u.due < t.due then some u else some t

/-- The host fires the next pending timer; nothing happens when none is pending. -/
def fireNext (s : State) : State :=
  match nextTimer s.timers with
  | none => s
  | some t => fire t s

/-- What can happen to the component. `setPlayers` is any roster edit (each of
`addPlayer`, `removePlayer`, `clearAll`, `restoreDefaults`, Shuffle Names and the
self-test ends in one `setPlayers`); `draw` is a click on a draw button, which runs the
current closure; `staleDraw` is the delayed `drawTeams()` of `runSelfTest`, a closure of
an earlier render with the roster it saw; `elapse` lets time pass without reaching a due
timer; `fire` is the host firing the next timer; `foreignTimer` is a timer handle taken
by another part of the page. -/
inductive Event
  | setPlayers (ps : List String)
  | draw (rnd : Nat → Nat)
  | staleDraw (rnd : Nat → Nat) (ps : List String)
  | elapse (d : Nat)
  | fire
  | foreignTimer

/-- One event. -/
def step : Event → State → Option State
  | Event.setPlayers ps, s => some { s with players := ps }
  | Event.draw rnd, s => drawTeams rnd s.players s
  | Event.staleDraw rnd ps, s => drawTeams rnd ps s
  | Event.elapse d, s =>
    if s.timers.all (fun t => decide (s.now + d ≤ t.due)) then some { s with now := s.now + d }
    else some s
  | Event.fire, s => some (fireNext s)
  | Event.foreignTimer, s => some { s with nextId := s.nextId + 1 }

/-- A sequence of events, oldest first. -/
def run : List Event → State → Option State
  | [], s => some s
  | e :: es, s => (step e s).bind (run es)

/-- The states the component can be in. -/
inductive Reachable : State → Prop
  | start : Reachable initialState
  | next {s s2 : State} (e : Event) : Reachable s → step e s = some s2 → Reachable s2

/-- Whether an event is a call of `drawTeams`. -/
def Event.isDraw : Event → Bool
  | Event.draw _ => true
  | Event.staleDraw _ _ => true
  | _ => false

/-- The number of timer firings in a sequence of events. -/
def fires : List Event → Nat
  | [] => 0
  | Event.fire :: es => fires es + 1
  | _ :: es => fires es

/-- The timer discipline of the scheduler: handles are positive and were handed out
before `nextId`, at most one timer is pending, it is the one a ref points to, and a
pending `stage` callback belongs to a timeout. -/
def Inv (s : State) : Prop :=
  1 ≤ s.nextId ∧
  (∀ id, s.stageTimeoutRef = some id → 1 ≤ id ∧ id < s.nextId) ∧
  (∀ id, s.stepIntervalRef = some id → 1 ≤ id ∧ id < s.nextId) ∧
  (s.timers = [] ∨
    ∃ t, s.timers = [t] ∧
      (s.stageTimeoutRef = some t.id ∨ s.stepIntervalRef = some t.id) ∧
      (∀ total, t.cb = Callback.stage total → t.period = none))

/-- Where a reveal stands after `m` timer firings, for a draw made at time `t0` that
produced `total` teams: the value of `revealIndex` and `isDrawing`, and the one timer
that is pending with the time it is due. -/
def Phase (total t0 : Nat) (teams : List (List String)) (waiting : List String)
    (m : Nat) (s : State) : Prop :=
  Inv s ∧ s.teams = teams ∧ s.waiting = waiting ∧
  s.revealIndex = ((min m total : Nat) : Int) - 1 ∧
  s.isDrawing = decide (m ≤ total) ∧
  (m = 0 → ∃ id, s.timers =
      [{ id := id, due := t0 + spinMs total, period := none, cb := Callback.stage total }] ∧
    s.now ≤ t0 + spinMs total) ∧
  (1 ≤ m → m ≤ total → ∃ id, s.timers =
      [{ id := id, due := t0 + spinMs total + 900 * m, period := some 900,
         cb := Callback.tick total (m - 1) }] ∧
    t0 + spinMs total + 900 * (m - 1) ≤ s.now ∧ s.now ≤ t0 + spinMs total + 900 * m) ∧
  (total < m → s.timers = [] ∧ t0 + spinMs total + 900 * total ≤ s.now)

/-- The default roster drawn with every draw equal to 0, at the moment the stage timeout
has fired: team 0 is revealed and the interval is pending. -/
def midReveal : State :=
  { players := DEFAULT_PLAYERS, isDrawing := true, revealIndex := 0,
    teams := [["Edis", "Amalie"], ["Åshild", "Joachim"]], waiting := [],
    stageTimeoutRef := some 1, stepIntervalRef := some 2,
    timers := [{ id := 2, due := 2200, period := some 900, cb := Callback.tick 2 0 }],
    nextId := 3, now := 1300 }

/-- The number of teams a callback has captured in its `total`. -/
def Callback.total : Callback → Nat
  | Callback.stage total => total
  | Callback.tick total _ => total

/-- The reveal stays inside the current assignment: the timer discipline holds,
`revealIndex` lies between `-1` and the index of the last team, and a pending timer
belongs to the current draw, which has at least one team. -/
def DrawInv (s : State) : Prop :=
  Inv s ∧ -1 ≤ s.revealIndex ∧ s.revealIndex ≤ (s.teams.length : Int) - 1 ∧
  ∀ t ∈ s.timers, t.cb.total = s.teams.length ∧ 1 ≤ s.teams.length

/-! ## The name reel (lines 70-154 and 503-504 of `App.jsx`) -/

/-- The value of `x || "—"` for `x` a string or `undefined` (`none`): the empty string and
`undefined` are falsy. -/
def orPlaceholder : Option String → String
  | some x => if x = "" then "—" else x
  | none => "—"

/-- The props of a `NameReel`; `target` is `none` when it is `undefined`. -/
structure ReelProps where
  active : Bool
  target : Option String
  pool : List String
  delay : Nat
  deriving DecidableEq

/-- The two closures of a `NameReel` effect, each with the `pool` it captured: `start` is
the callback of the `setTimeout` at line 93, `spin` the callback of the `setInterval` at
line 98. -/
inductive ReelCallback
  | start (pool : List String)
  | spin (pool : List String)
  deriving DecidableEq

/-- A pending timer of a `NameReel`. -/
structure ReelTimer where
  id : Nat
  due : Nat
  period : Option Nat
  cb : ReelCallback
  deriving DecidableEq

/-- The state of one `NameReel`: `display` (`none` is `undefined`), its two refs, and the
part of the host its refs point into. -/
structure Reel where
  display : Option String
  intervalRef : Option Nat
  timeoutRef : Option Nat
  timers : List ReelTimer
  nextId : Nat
  now : Nat
  deriving DecidableEq

/-- A `NameReel` at its first render, before its effect has run. -/
def initialReel : Reel :=
  { display := some "", intervalRef := none, timeoutRef := none, timers := [], nextId := 1,
    now := 0 }

/-- The clearing code at the start of the effect (lines 77-84); the cleanup the effect
returns (lines 105-112) is the same code. -/
def reelClear (r : Reel) : Reel :=
  let r1 :=
    match r.timeoutRef with
    | some id =>
      if truthy (some id) then
        { r with timers := r.timers.filter (fun t => t.id != id), timeoutRef := none }
      else r
    | none => r
  match r1.intervalRef with
  | some id =>
    if truthy (some id) then
      { r1 with timers := r1.timers.filter (fun t => t.id != id), intervalRef := none }
    else r1
  | none => r1

/-- The body of the effect (lines 75-103) for the props `p`. -/
def reelEffect (p : ReelProps) (r : Reel) : Reel :=
  let r1 := reelClear r
  if !p.active then { r1 with display := some (orPlaceholder p.target) }
  else
    { r1 with
      timers := r1.timers ++
        [{ id := r1.nextId, due := r1.now + p.delay, period := none,
           cb := ReelCallback.start p.pool }],
      nextId := r1.nextId + 1,
      timeoutRef := some r1.nextId }

/-- A render in which one of `active`, `pool`, `target`, `delay` has changed: the cleanup
of the previous effect runs, then the effect for the new props. -/
def reelUpdate (p : ReelProps) (r : Reel) : Reel :=
  reelEffect p (reelClear r)

/-- The body of a reel callback; `j` is the value of
`Math.floor(Math.random() * pool.length)` when the callback draws one. -/
def reelRunCallback : ReelCallback → Nat → Reel → Reel
  | ReelCallback.start pool, _, r =>
    if pool.length = 0 then { r with display := some "—" }
    else
      { r with
        timers := r.timers ++
          [{ id := r.nextId, due := r.now + 80, period := some 80,
             cb := ReelCallback.spin pool }],
        nextId := r.nextId + 1,
        intervalRef := some r.nextId }
  | ReelCallback.spin pool, j, r => { r with display := pool[j]? }

/-- The pending reel timer that fires next: the earliest due, the older one on a tie. -/
def reelNextTimer : List ReelTimer → Option ReelTimer
  | [] => none
  | t :: ts =>
    match reelNextTimer ts with
    | none => some t
    | some u => if u.due < t.due then some u else some t

/-- The host fires the next pending timer of the reel: the clock reaches its due time, a
timeout leaves the table, an interval is armed again one period later, and the callback
runs. -/
def reelFire (j : Nat) (r : Reel) : Reel :=
  match reelNextTimer r.timers with
  | none => r
  | some t =>
    let r1 := { r with now := max r.now t.due }
    let r2 :=
      match t.period with
      | none => { r1 with timers := r1.timers.filter (fun u => u.id != t.id) }
      | some p =>
        { r1 with timers := r1.timers.map (fun u =>
            if u.id = t.id then { u with due := t.due + p } else u) }
    reelRunCallback t.cb j r2

/-- Successive firings of the reel with the given draws, oldest first. -/
def reelTicks (js : List Nat) (r : Reel) : Reel :=
  js.foldl (fun acc j => reelFire j acc) r

/-- The text the reel renders: `display || "—"`. -/
def reelText (r : Reel) : String := orPlaceholder r.display

/-- The two reels of a `TeamCard` (lines 149-150), as their props. -/
def TeamCard (names : List String) (reveal : Bool) (playersPool : List String) :
    List ReelProps :=
  [{ active := !reveal, target := names[0]?, pool := playersPool, delay := 100 },
   { active := !reveal, target := names[1]?, pool := playersPool, delay := 260 }]

/-- The two team cards of the page (lines 503-504). -/
def teamCards (s : State) : List (List ReelProps) :=
  [TeamCard (s.teams[0]?.getD []) (decide (s.revealIndex ≥ 0)) s.players,
   TeamCard (s.teams[1]?.getD []) (decide (s.revealIndex ≥ 1)) s.players]

/-- The props of slot `k` of team card `t`. -/
def slotProps (s : State) (t k : Nat) : Option ReelProps :=
  (teamCards s)[t]?.bind (fun card => card[k]?)

/-- The states a `NameReel` can be in: at its first render, after its first effect, after
a change of props, after a firing, after time has passed without reaching a due timer, and
after the host has given a timer handle to another part of the page. -/
inductive ReelReachable : Reel → Prop
  | init : ReelReachable initialReel
  | mount (p : ReelProps) : ReelReachable (reelEffect p initialReel)
  | update {r : Reel} (p : ReelProps) : ReelReachable r → ReelReachable (reelUpdate p r)
  | fire {r : Reel} (j : Nat) : ReelReachable r → ReelReachable (reelFire j r)
  | elapse {r : Reel} (d : Nat) : ReelReachable r → (∀ t ∈ r.timers, r.now + d ≤ t.due) →
      ReelReachable { r with now := r.now + d }
  | foreignTimer {r : Reel} : ReelReachable r → ReelReachable { r with nextId := r.nextId + 1 }

/-- The timer discipline of a reel: handles are positive and older than `nextId`, at most
one timer is pending, a ref points to it, a pending `start` callback belongs to a timeout
and a pending `spin` callback to an interval of 80 ms. -/
def ReelInv (r : Reel) : Prop :=
  1 ≤ r.nextId ∧
  (∀ id, r.timeoutRef = some id → 1 ≤ id ∧ id < r.nextId) ∧
  (∀ id, r.intervalRef = some id → 1 ≤ id ∧ id < r.nextId) ∧
  (r.timers = [] ∨
    ∃ t, r.timers = [t] ∧
      (r.timeoutRef = some t.id ∨ r.intervalRef = some t.id) ∧
      (∀ pool, t.cb = ReelCallback.start pool → t.period = none) ∧
      (∀ pool, t.cb = ReelCallback.spin pool → t.period = some 80))

/-! ## Roster operations (lines 22-25 and 190-207 of `App.jsx`) -/

/-- The function `uniquePush(list, name)`. The parameters `trim` and `toLowerCase` stand
for the built-ins `String.prototype.trim` and `String.prototype.toLowerCase`. -/
def uniquePush (trim toLowerCase : String → String) (list : List String) (name : String) :
    List String :=
  if list.any (fun n => toLowerCase (trim n) == toLowerCase (trim name)) then list
  else list ++ [trim name]

/-- The updater of `addPlayer()`: `name` is the content of the text field, `prev` the
roster; an input that is empty after trimming changes nothing. -/
def addPlayer (trim toLowerCase : String → String) (name : String) (prev : List String) :
    List String :=
  let trimmed := trim name
  if trimmed = "" then prev else uniquePush trim toLowerCase prev trimmed

/-- The updater of `removePlayer(n)`. -/
def removePlayer (n : String) (prev : List String) : List String :=
  prev.filter (fun p => p != n)

/-- The roster set by `clearAll()`. -/
def clearAll : List String := []

/-- The roster set by `restoreDefaults()`. -/
def restoreDefaults : List String := DEFAULT_PLAYERS

/-- The roster operations of the page: Add (with the content of the text field), the
remove button of a chip, Remove all, Restore defaults and Shuffle Names (with the draws
of its shuffle). -/
inductive RosterOp
  | addPlayer (name : String)
  | removePlayer (n : String)
  | clearAll
  | restoreDefaults
  | shuffleNames (rnd : Nat → Nat)

/-- One roster operation on the roster `players`. -/
def applyOp (trim toLowerCase : String → String) : RosterOp → List String → Option (List String)
  | RosterOp.addPlayer name, players => some (addPlayer trim toLowerCase name players)
  | RosterOp.removePlayer n, players => some (removePlayer n players)
  | RosterOp.clearAll, _ => some clearAll
  | RosterOp.restoreDefaults, _ => some restoreDefaults
  | RosterOp.shuffleNames rnd, players => shuffleArray rnd players

/-- A sequence of roster operations, oldest first. -/
def runOps (trim toLowerCase : String → String) :
    List RosterOp → List String → Option (List String)
  | [], players => some players
  | op :: ops, players => (applyOp trim toLowerCase op players).bind (runOps trim toLowerCase ops)

/-- Whether the draws of every Shuffle Names in a sequence of operations lie in `0 .. i`. -/
def OpsValid (ops : List RosterOp) : Prop :=
  ∀ rnd, RosterOp.shuffleNames rnd ∈ ops → ∀ i, rnd i ≤ i

/-- Roster uniqueness: every name is non-empty and trimmed, and no two entries are equal
after trimming and lower-casing. -/
def RosterOK (trim toLowerCase : String → String) (roster : List String) : Prop :=
  (∀ n ∈ roster, n ≠ "" ∧ trim n = n) ∧
  roster.Pairwise (fun a b => toLowerCase (trim a) ≠ toLowerCase (trim b))

/-- The characters `String.prototype.trim` removes: the ECMAScript white space and line
terminator code points. -/
def isWhiteSpace (c : Char) : Bool :=
  c.toNat ∈ [0x9, 0xA, 0xB, 0xC, 0xD, 0x20, 0xA0, 0x1680, 0x2000, 0x2001, 0x2002, 0x2003,
    0x2004, 0x2005, 0x2006, 0x2007, 0x2008, 0x2009, 0x200A, 0x2028, 0x2029, 0x202F, 0x205F,
    0x3000, 0xFEFF]

/-- An instance of the parameter `trim`: white space is removed from both ends. -/
def jsTrim (s : String) : String :=
  String.mk ((s.data.dropWhile isWhiteSpace).rdropWhile isWhiteSpace)

/-- The lower-case form of a character of the Basic Latin and Latin-1 Supplement blocks as
`String.prototype.toLowerCase` gives it: `A` to `Z`, `À` to `Ö` and `Ø` to `Þ` move up by
32 code points; every other character is kept. -/
def lowerChar (c : Char) : Char :=
  if (0x41 ≤ c.toNat ∧ c.toNat ≤ 0x5A) ∨ (0xC0 ≤ c.toNat ∧ c.toNat ≤ 0xD6) ∨
      (0xD8 ≤ c.toNat ∧ c.toNat ≤ 0xDE) then
    Char.ofNat (c.toNat + 0x20)
  else c

/-- An instance of the parameter `toLowerCase`: it agrees with the built-in on strings of
Basic Latin and Latin-1 Supplement characters, such as the default names (`Åshild` becomes
`åshild`); characters of other blocks are kept as they are. -/
def latin1LowerCase (s : String) : String :=
  String.mk (s.data.map lowerChar)

/-! ## The shuffle is a permutation -/

theorem perm_cons_set {α : Type} (h : α) :
    ∀ (t : List α) (k : Nat) (y : α), t[k]? = some y → (y :: t.set k h).Perm (h :: t) := by
  intro t
  induction t with
  | nil => intro k y hk; simp at hk
  | cons z t ih =>
    intro k y hk
    cases k with
    | zero =>
      simp at hk
      subst hk
      simpa using List.Perm.swap h z t
    | succ k =>
      simp at hk
      have h1 : (y :: z :: t.set k h).Perm (z :: y :: t.set k h) := List.Perm.swap z y _
      have h2 : (z :: y :: t.set k h).Perm (z :: h :: t) := (ih k y hk).cons z
      have h3 : (z :: h :: t).Perm (h :: z :: t) := List.Perm.swap h z t
      simpa using h1.trans (h2.trans h3)

theorem set_set_perm {α : Type} :
    ∀ (a : List α) (i j : Nat) (x y : α), a[i]? = some x → a[j]? = some y →
      ((a.set i y).set j x).Perm a := by
  intro a
  induction a with
  | nil => intro i j x y hi; simp at hi
  | cons h t ih =>
    intro i j x y hi hj
    cases i with
    | zero =>
      simp at hi
      subst hi
      cases j with
      | zero => simp at hj; subst hj; simp
      | succ j =>
        simp at hj
        simpa using perm_cons_set h t j y hj
    | succ i =>
      simp at hi
      cases j with
      | zero =>
        simp at hj
        subst hj
        simpa using perm_cons_set h t i x hi
      | succ j =>
        simp at hj
        simpa using (ih i j x y hi hj).cons h

theorem swap_eq_some {α : Type} (a : List α) (i j : Nat) (hi : i < a.length)
    (hj : j < a.length) : swap a i j = some ((a.set i a[j]).set j a[i]) := by
  simp [swap, List.getElem?_eq_getElem hi, List.getElem?_eq_getElem hj]

theorem swap_perm {α : Type} (a b : List α) (i j : Nat) (h : swap a i j = some b) :
    b.Perm a := by
  unfold swap at h
  split at h
  · rename_i x y hx hy
    cases h
    exact set_set_perm a i j x y hx hy
  · cases h

theorem shuffleLoop_perm {α : Type} (rnd : Nat → Nat) :
    ∀ (i : Nat) (a : List α), i < a.length → (∀ k, k ≤ i → rnd k ≤ k) →
      ∃ p, shuffleLoop rnd i a = some p ∧ p.Perm a := by
  intro i
  induction i with
  | zero => intro a _ _; exact ⟨a, rfl, List.Perm.refl a⟩
  | succ i ih =>
    intro a hi hv
    have hj : rnd (i + 1) < a.length := lt_of_le_of_lt (hv (i + 1) le_rfl) hi
    have hs := swap_eq_some a (i + 1) (rnd (i + 1)) hi hj
    have hb := swap_perm a _ _ _ hs
    obtain ⟨p, hp, hperm⟩ := ih _ (by rw [hb.length_eq]; omega) (fun k hk => hv k (by omega))
    exact ⟨p, by simp [shuffleLoop, hs, hp], hperm.trans hb⟩

theorem shuffleArray_perm {α : Type} (rnd : Nat → Nat) (arr : List α)
    (hv : ValidDraws rnd arr.length) :
    ∃ p, shuffleArray rnd arr = some p ∧ p.Perm arr := by
  cases arr with
  | nil => exact ⟨[], rfl, List.Perm.refl _⟩
  | cons x xs =>
    apply shuffleLoop_perm
    · simp
    · intro k hk
      exact hv k (by simp at hk ⊢; omega)

/-! ## The splitter -/

theorem chunkLoop_eq {α : Type} (arr : List α) (size : Nat) (hsize : 0 < size) :
    ∀ (fuel i : Nat) (out : List (List α)), arr.length - i ≤ fuel →
      chunkLoop arr size fuel i out =
        some (out ++ (List.range ((arr.length - i + size - 1) / size)).map
          (fun k => slice arr (i + k * size) (i + k * size + size))) := by
  intro fuel
  induction fuel with
  | zero =>
    intro i out h
    have h0 : (arr.length - i + size - 1) / size = 0 := by
      apply Nat.div_eq_of_lt; omega
    have hlt : ¬ i < arr.length := by omega
    simp [chunkLoop, hlt, h0]
  | succ fuel ih =>
    intro i out h
    by_cases hlt : i < arr.length
    · have hm : (arr.length - i + size - 1) / size
          = (arr.length - (i + size) + size - 1) / size + 1 := by
        by_cases hle : i + size ≤ arr.length
        · have e : arr.length - i + size - 1 = (arr.length - (i + size) + size - 1) + size := by
            omega
          rw [e, Nat.add_div_right _ hsize]
        · have e1 : (arr.length - (i + size) + size - 1) / size = 0 := by
            apply Nat.div_eq_of_lt; omega
          have e2 : arr.length - i + size - 1 = (arr.length - i - 1) + size := by omega
          have e3 : (arr.length - i - 1) / size = 0 := by
            apply Nat.div_eq_of_lt; omega
          rw [e1, e2, Nat.add_div_right _ hsize, e3]
      rw [chunkLoop, if_pos hlt, ih (i + size) _ (by omega), hm, List.range_succ_eq_map]
      simp only [List.map_cons, List.map_map, List.append_assoc, List.singleton_append,
        Nat.zero_mul, Nat.add_zero]
      congr 3
      apply List.map_congr_left
      intro k _
      simp only [Function.comp, Nat.succ_eq_add_one]
      have e : i + size + k * size = i + (k + 1) * size := by ring
      rw [e]
    · have h0 : (arr.length - i + size - 1) / size = 0 := by
        apply Nat.div_eq_of_lt; omega
      simp [chunkLoop, hlt, h0]

theorem chunk_eq {α : Type} (arr : List α) (size : Nat) (hsize : 0 < size) :
    chunk arr size =
      some ((List.range ((arr.length + size - 1) / size)).map
        (fun k => slice arr (k * size) (k * size + size))) := by
  have h := chunkLoop_eq arr size hsize arr.length 0 [] (by omega)
  simpa [chunk] using h

theorem flatten_slices {α : Type} (l : List α) (size : Nat) :
    ∀ m : Nat, ((List.range m).map
      (fun k => slice l (k * size) (k * size + size))).flatten = l.take (m * size) := by
  intro m
  induction m with
  | zero => simp
  | succ m ih =>
    rw [List.range_succ, List.map_append, List.flatten_append, ih]
    simp [slice, Nat.succ_mul, List.take_add]

/-! ## What one call of `drawTeams` computes -/

theorem shuffleLoop_some_perm {α : Type} (rnd : Nat → Nat) :
    ∀ (i : Nat) (a p : List α), shuffleLoop rnd i a = some p → p.Perm a := by
  intro i
  induction i with
  | zero => intro a p h; simp [shuffleLoop] at h; subst h; exact List.Perm.refl _
  | succ i ih =>
    intro a p h
    simp only [shuffleLoop] at h
    cases hs : swap a (i + 1) (rnd (i + 1)) with
    | none => simp [hs] at h
    | some b =>
      simp [hs] at h
      exact (ih b p h).trans (swap_perm a b _ _ hs)

theorem shuffleArray_some_perm {α : Type} (rnd : Nat → Nat) (arr p : List α)
    (h : shuffleArray rnd arr = some p) : p.Perm arr :=
  shuffleLoop_some_perm rnd _ arr p h

/-- The teams `drawTeams` builds from the shuffled order. -/
theorem pairs_eq {α : Type} (order : List α) :
    chunk (slice order 0 (order.length / 2 * 2)) 2 =
      some ((List.range (order.length / 2)).map
        (fun k => slice (slice order 0 (order.length / 2 * 2)) (k * 2) (k * 2 + 2))) := by
  rw [chunk_eq _ 2 (by decide)]
  have hl : (slice order 0 (order.length / 2 * 2)).length = order.length / 2 * 2 := by
    simp [slice]; omega
  have hm : ((slice order 0 (order.length / 2 * 2)).length + 2 - 1) / 2 = order.length / 2 := by
    rw [hl]; omega
  rw [hm]

/-- The state after a call of `drawTeams` that passes the guard, written out. -/
theorem drawTeams_spec (rnd : Nat → Nat) (players : List String) (s : State)
    (order : List String) (h2 : 2 ≤ players.length)
    (ho : shuffleArray rnd players = some order) :
    drawTeams rnd players s = some
      { clearTimers s with
        teams := (List.range (order.length / 2)).map
          (fun k => slice (slice order 0 (order.length / 2 * 2)) (k * 2) (k * 2 + 2)),
        waiting := order.drop (order.length / 2 * 2),
        isDrawing := true,
        revealIndex := -1,
        timers := (clearTimers s).timers ++
          [{ id := (clearTimers s).nextId,
             due := (clearTimers s).now + spinMs (order.length / 2),
             period := none,
             cb := Callback.stage (order.length / 2) }],
        nextId := (clearTimers s).nextId + 1,
        stageTimeoutRef := some (clearTimers s).nextId } := by
  have hc : canDraw players = true := by simp [canDraw, h2]
  simp [drawTeams, hc, ho, pairs_eq, setTimeout, sliceFrom]

theorem drawTeams_guard (rnd : Nat → Nat) (players : List String) (s : State)
    (h : players.length < 2) : drawTeams rnd players s = some s := by
  have hc : canDraw players = false := by simp [canDraw]; omega
  simp [drawTeams, hc]

theorem slice_pair {α : Type} (p : List α) (k : Nat) (hk : k < p.length / 2) :
    ∃ x y, p[2 * k]? = some x ∧ p[2 * k + 1]? = some y ∧
      slice (slice p 0 (p.length / 2 * 2)) (k * 2) (k * 2 + 2) = [x, y] := by
  have h0 : 2 * k < p.length := by omega
  have h1 : 2 * k + 1 < p.length := by omega
  refine ⟨p[2 * k], p[2 * k + 1], List.getElem?_eq_getElem h0, List.getElem?_eq_getElem h1, ?_⟩
  apply List.ext_getElem?
  intro n
  simp only [slice, Nat.sub_zero, List.drop_zero, Nat.add_sub_cancel_left, List.getElem?_take,
    List.getElem?_drop]
  rcases n with _ | _ | n
  · have : k * 2 + 0 < p.length / 2 * 2 := by omega
    simp only [this, if_true]
    have e : k * 2 + 0 = 2 * k := by omega
    simp [e, List.getElem?_eq_getElem h0]
  · have : k * 2 + (0 + 1) < p.length / 2 * 2 := by omega
    simp only [this, if_true]
    have e : k * 2 + (0 + 1) = 2 * k + 1 := by omega
    simp [e, List.getElem?_eq_getElem h1]
  · simp

/-! ## The partition of a draw -/

/-- Draws used in the examples: `j = 1` at loop index 3, `j = 1` at loop index 2 and
`j = 0` at loop index 1, so that `[A, B, C, D]` is shuffled to `[C, A, D, B]`. -/
theorem rndA_shuffle :
    shuffleArray (fun i => if i = 3 then 1 else if i = 2 then 1 else 0) ["A", "B", "C", "D"]
      = some ["C", "A", "D", "B"] := by decide

/-- C1 (partition completeness): for a roster of at least two names and draws `j ≤ i`,
`drawTeams` returns, and the names of all teams followed by the waiting names are a
rearrangement of the roster: every entry is kept exactly once, nothing is added. -/
theorem drawTeams_partition (rnd : Nat → Nat) (players : List String) (s : State)
    (h2 : 2 ≤ players.length) (hv : ValidDraws rnd players.length) :
    ∃ s2, drawTeams rnd players s = some s2 ∧
      (s2.teams.flatten ++ s2.waiting).Perm players := by
  obtain ⟨order, ho, hperm⟩ := shuffleArray_perm rnd players hv
  refine ⟨_, drawTeams_spec rnd players s order h2 ho, ?_⟩
  simp only [flatten_slices]
  have e : List.take (order.length / 2 * 2) (slice order 0 (order.length / 2 * 2))
      = List.take (order.length / 2 * 2) order := by
    simp [slice]
  rw [e, List.take_append_drop]
  exact hperm

/-- Witness of C1: the roster `[A, B, C]` with every draw equal to 0. -/
theorem drawTeams_partition_witness :
    2 ≤ ["A", "B", "C"].length ∧ ValidDraws (fun _ => 0) ["A", "B", "C"].length ∧
      ∃ s2, drawTeams (fun _ => 0) ["A", "B", "C"] initialState = some s2 ∧
        (s2.teams.flatten ++ s2.waiting).Perm ["A", "B", "C"] :=
  ⟨by decide, fun _ _ => Nat.zero_le _,
    drawTeams_partition (fun _ => 0) ["A", "B", "C"] initialState (by decide)
      (fun _ _ => Nat.zero_le _)⟩

/-- C2 (size invariant): for a roster of `n ≥ 2` names and draws `j ≤ i`, `drawTeams`
returns with exactly `n / 2` teams, each of exactly two names, and `n % 2` waiting
names, so at most one. -/
theorem drawTeams_sizes (rnd : Nat → Nat) (players : List String) (s : State)
    (h2 : 2 ≤ players.length) (hv : ValidDraws rnd players.length) :
    ∃ s2, drawTeams rnd players s = some s2 ∧
      s2.teams.length = players.length / 2 ∧
      (∀ t ∈ s2.teams, t.length = 2) ∧
      s2.waiting.length = players.length % 2 ∧
      s2.waiting.length ≤ 1 := by
  obtain ⟨order, ho, hperm⟩ := shuffleArray_perm rnd players hv
  have hlen : order.length = players.length := hperm.length_eq
  refine ⟨_, drawTeams_spec rnd players s order h2 ho, ?_, ?_, ?_, ?_⟩
  · simp [hlen]
  · intro t ht
    simp only [List.mem_map, List.mem_range] at ht
    obtain ⟨k, hk, rfl⟩ := ht
    obtain ⟨x, y, _, _, hxy⟩ := slice_pair order k hk
    rw [hxy]; rfl
  · simp only [List.length_drop, hlen]
    omega
  · simp only [List.length_drop, hlen]
    omega

/-- Witness of C2: the roster `[A, B, C]` with every draw equal to 0. -/
theorem drawTeams_sizes_witness :
    2 ≤ ["A", "B", "C"].length ∧ ValidDraws (fun _ => 0) ["A", "B", "C"].length ∧
      ∃ s2, drawTeams (fun _ => 0) ["A", "B", "C"] initialState = some s2 ∧
        s2.teams.length = ["A", "B", "C"].length / 2 ∧
        (∀ t ∈ s2.teams, t.length = 2) ∧
        s2.waiting.length = ["A", "B", "C"].length % 2 ∧
        s2.waiting.length ≤ 1 :=
  ⟨by decide, fun _ _ => Nat.zero_le _,
    drawTeams_sizes (fun _ => 0) ["A", "B", "C"] initialState (by decide)
      (fun _ _ => Nat.zero_le _)⟩

/-- C3 (contiguous pairs): when the shuffle of a roster of `n ≥ 2` names yields the order
`p`, `drawTeams` returns with `n / 2` teams, team `i` is `[p[2i], p[2i+1]]` for every
`i < n / 2`, and waiting is the tail of `p` from index `2 * (n / 2)` on. In particular the
order `[C, A, D, B]` gives teams `[[C, A], [D, B]]` and no one waiting, and the order
`[B, C, A]` gives teams `[[B, C]]` and waiting `[A]`. -/
theorem drawTeams_contiguous (rnd : Nat → Nat) (players : List String) (s : State)
    (p : List String) (h2 : 2 ≤ players.length) (hp : shuffleArray rnd players = some p) :
    (∃ s2, drawTeams rnd players s = some s2 ∧
      s2.teams.length = players.length / 2 ∧
      (∀ i, i < players.length / 2 →
        ∃ x y, p[2 * i]? = some x ∧ p[2 * i + 1]? = some y ∧ s2.teams[i]? = some [x, y]) ∧
      s2.waiting = p.drop (2 * (players.length / 2))) ∧
    (p = ["C", "A", "D", "B"] →
      ∃ s2, drawTeams rnd players s = some s2 ∧
        s2.teams = [["C", "A"], ["D", "B"]] ∧ s2.waiting = []) ∧
    (p = ["B", "C", "A"] →
      ∃ s2, drawTeams rnd players s = some s2 ∧
        s2.teams = [["B", "C"]] ∧ s2.waiting = ["A"]) := by
  have hlen : p.length = players.length := (shuffleArray_some_perm rnd players p hp).length_eq
  refine ⟨⟨_, drawTeams_spec rnd players s p h2 hp, ?_, ?_, ?_⟩, ?_, ?_⟩
  · simp [hlen]
  · intro i hi
    rw [← hlen] at hi
    obtain ⟨x, y, hx, hy, hxy⟩ := slice_pair p i hi
    refine ⟨x, y, hx, hy, ?_⟩
    simp only [List.getElem?_map, List.getElem?_range hi, Option.map_some', hxy]
  · simp only [hlen, Nat.mul_comm]
  · intro e
    subst e
    exact ⟨_, drawTeams_spec rnd players s _ h2 hp, rfl, rfl⟩
  · intro e
    subst e
    exact ⟨_, drawTeams_spec rnd players s _ h2 hp, rfl, rfl⟩

/-- Witness of C3: the roster `[A, B, C, D]` shuffled to `[C, A, D, B]`. -/
theorem drawTeams_contiguous_witness :
    2 ≤ ["A", "B", "C", "D"].length ∧
    ∃ s2, drawTeams (fun i => if i = 3 then 1 else if i = 2 then 1 else 0)
        ["A", "B", "C", "D"] initialState = some s2 ∧
      s2.teams = [["C", "A"], ["D", "B"]] ∧ s2.waiting = [] :=
  ⟨by decide,
    (drawTeams_contiguous (fun i => if i = 3 then 1 else if i = 2 then 1 else 0)
      ["A", "B", "C", "D"] initialState ["C", "A", "D", "B"] (by decide) rndA_shuffle).2.1 rfl⟩

/-- C4 (permutation validity): for every list, the empty and the one-element list
included, and draws `j ≤ i`, `shuffleArray` returns a list of the same length in which
every element occurs as often as in the input. -/
theorem shuffleArray_permutation {α : Type} [DecidableEq α] (rnd : Nat → Nat) (arr : List α)
    (hv : ValidDraws rnd arr.length) :
    ∃ p, shuffleArray rnd arr = some p ∧ p.length = arr.length ∧ p.Perm arr ∧
      ∀ x, p.count x = arr.count x := by
  obtain ⟨p, hp, hperm⟩ := shuffleArray_perm rnd arr hv
  exact ⟨p, hp, hperm.length_eq, hperm, fun x => hperm.count_eq x⟩

/-- Witness of C4: the list `[A, A, B]`, which has a repeated element. -/
theorem shuffleArray_permutation_witness :
    ValidDraws (fun _ => 0) ["A", "A", "B"].length ∧
      ∃ p, shuffleArray (fun _ => 0) ["A", "A", "B"] = some p ∧
        p.length = ["A", "A", "B"].length ∧ p.Perm ["A", "A", "B"] ∧
        ∀ x, p.count x = ["A", "A", "B"].count x :=
  ⟨fun _ _ => Nat.zero_le _,
    shuffleArray_permutation (fun _ => 0) ["A", "A", "B"] (fun _ _ => Nat.zero_le _)⟩

/-! ## The shuffle reaches every order exactly once -/

theorem swap_getElem? {α : Type} (a b : List α) (i j k : Nat) (h : swap a i j = some b) :
    b[k]? = if k = j then a[i]? else if k = i then a[j]? else a[k]? := by
  unfold swap at h
  split at h
  · rename_i x y hx hy
    cases h
    have hj : j < a.length := (List.getElem?_eq_some.1 hy).1
    have hi : i < a.length := (List.getElem?_eq_some.1 hx).1
    rw [List.getElem?_set, List.getElem?_set]
    by_cases h1 : k = j
    · subst h1
      simp [hx, hj]
    · have h1b : ¬ j = k := fun e => h1 e.symm
      by_cases h2 : k = i
      · subst h2
        simp [h1, h1b, hy, hi]
      · have h2b : ¬ i = k := fun e => h2 e.symm
        simp [h1, h1b, h2, h2b]
  · cases h

theorem shuffleLoop_fix {α : Type} (rnd : Nat → Nat) :
    ∀ (i : Nat) (a p : List α), shuffleLoop rnd i a = some p →
      (∀ k, 1 ≤ k → k ≤ i → rnd k ≤ k) → ∀ k, i < k → p[k]? = a[k]? := by
  intro i
  induction i with
  | zero => intro a p h _ k _; simp [shuffleLoop] at h; subst h; rfl
  | succ i ih =>
    intro a p h hv k hk
    simp only [shuffleLoop] at h
    cases hs : swap a (i + 1) (rnd (i + 1)) with
    | none => simp [hs] at h
    | some b =>
      simp [hs] at h
      rw [ih b p h (fun m h1 h2 => hv m h1 (by omega)) k (by omega),
        swap_getElem? a b _ _ k hs]
      have hj := hv (i + 1) (by omega) le_rfl
      have h1 : ¬ k = rnd (i + 1) := by omega
      have h2 : ¬ k = i + 1 := by omega
      simp [h1, h2]

theorem shuffleLoop_inj {α : Type} (rnd rnd2 : Nat → Nat) :
    ∀ (i : Nat) (a p : List α), a.Nodup → i < a.length →
      (∀ k, 1 ≤ k → k ≤ i → rnd k ≤ k) → (∀ k, 1 ≤ k → k ≤ i → rnd2 k ≤ k) →
      shuffleLoop rnd i a = some p → shuffleLoop rnd2 i a = some p →
      ∀ k, 1 ≤ k → k ≤ i → rnd k = rnd2 k := by
  intro i
  induction i with
  | zero => intro a p _ _ _ _ _ _ k h1 h2; omega
  | succ i ih =>
    intro a p hnd hi hv hv2 h h2 k hk1 hk2
    simp only [shuffleLoop] at h h2
    cases hs : swap a (i + 1) (rnd (i + 1)) with
    | none => simp [hs] at h
    | some b =>
      cases hs2 : swap a (i + 1) (rnd2 (i + 1)) with
      | none => simp [hs2] at h2
      | some b2 =>
        simp [hs] at h
        simp [hs2] at h2
        have hj := hv (i + 1) (by omega) le_rfl
        have hj2 := hv2 (i + 1) (by omega) le_rfl
        have e1 : p[i + 1]? = a[rnd (i + 1)]? := by
          rw [shuffleLoop_fix rnd i b p h (fun m h1 h2 => hv m h1 (by omega)) (i + 1) (by omega),
            swap_getElem? a b _ _ (i + 1) hs]
          by_cases e : i + 1 = rnd (i + 1)
          · simp [← e]
          · simp [e]
        have e2 : p[i + 1]? = a[rnd2 (i + 1)]? := by
          rw [shuffleLoop_fix rnd2 i b2 p h2 (fun m h1 h2 => hv2 m h1 (by omega)) (i + 1)
            (by omega), swap_getElem? a b2 _ _ (i + 1) hs2]
          by_cases e : i + 1 = rnd2 (i + 1)
          · simp [← e]
          · simp [e]
        have hlt : rnd (i + 1) < a.length := by omega
        have hlt2 : rnd2 (i + 1) < a.length := by omega
        have e3 : a[rnd (i + 1)] = a[rnd2 (i + 1)] := by
          have := e1.symm.trans e2
          rw [List.getElem?_eq_getElem hlt, List.getElem?_eq_getElem hlt2] at this
          exact Option.some.inj this
        have hjj : rnd (i + 1) = rnd2 (i + 1) := (hnd.getElem_inj_iff).1 e3
        by_cases hk : k = i + 1
        · subst hk; exact hjj
        · have hb : b2 = b := by
            rw [hjj] at hs
            rw [hs] at hs2
            exact (Option.some.inj hs2).symm
          subst hb
          have hperm := swap_perm a b2 _ _ hs
          exact ih b2 p (hperm.nodup_iff.2 hnd) (by rw [hperm.length_eq]; omega)
            (fun m h1 h2 => hv m h1 (by omega)) (fun m h1 h2 => hv2 m h1 (by omega))
            h h2 k hk1 (by omega)

theorem toRnd_valid {n : Nat} (js : IndexSeq n) : ValidDraws js.toRnd n := by
  intro i hi
  unfold IndexSeq.toRnd
  split
  · rename_i h
    have := (js ⟨i - 1, by omega⟩).isLt
    simp only at this
    omega
  · exact Nat.zero_le _

theorem toRnd_inj {n : Nat} (js js2 : IndexSeq n)
    (h : ∀ k, 1 ≤ k → k ≤ n - 1 → js.toRnd k = js2.toRnd k) : js = js2 := by
  funext k
  have hk := k.isLt
  have e := h (k.val + 1) (by omega) (by omega)
  have hc : 0 < k.val + 1 ∧ k.val + 1 < n := by omega
  simp only [IndexSeq.toRnd, hc, and_self, dif_pos, Nat.add_sub_cancel] at e
  exact Fin.ext e

theorem prod_fin_add_two : ∀ m : Nat, (∏ k : Fin m, (k.val + 2)) = (m + 1).factorial := by
  intro m
  induction m with
  | zero => simp
  | succ m ih =>
    rw [Fin.prod_univ_castSucc]
    simp only [Fin.coe_castSucc, Fin.val_last, ih]
    rw [Nat.factorial_succ (m + 1)]
    ring

theorem card_indexSeq (n : Nat) : Fintype.card (IndexSeq n) = n.factorial := by
  rw [Fintype.card_pi]
  simp only [Fintype.card_fin]
  rw [prod_fin_add_two]
  cases n with
  | zero => rfl
  | succ n => rfl

theorem shuffleArray_inj {α : Type} (roster p : List α) (hnd : roster.Nodup)
    (js js2 : IndexSeq roster.length)
    (h : shuffleArray js.toRnd roster = some p) (h2 : shuffleArray js2.toRnd roster = some p) :
    js = js2 := by
  apply toRnd_inj
  intro k hk1 hk2
  have hlen : roster.length - 1 < roster.length := by omega
  exact shuffleLoop_inj js.toRnd js2.toRnd (roster.length - 1) roster p hnd hlen
    (fun m _ hm => toRnd_valid js m (by omega)) (fun m _ hm => toRnd_valid js2 m (by omega))
    h h2 k hk1 hk2

theorem shuffleArray_exists_unique {α : Type} (roster : List α) (hnd : roster.Nodup)
    (p : List α) (hp : p.Perm roster) :
    ∃! js : IndexSeq roster.length, shuffleArray js.toRnd roster = some p := by
  have hsome := fun js : IndexSeq roster.length =>
    shuffleArray_perm js.toRnd roster (toRnd_valid js)
  choose f hf using hsome
  let F : IndexSeq roster.length → { q : List α // q.Perm roster } :=
    fun js => ⟨f js, (hf js).2⟩
  have hinj : Function.Injective F := by
    intro js js2 e
    have e2 : f js = f js2 := congrArg Subtype.val e
    exact shuffleArray_inj roster (f js) hnd js js2 (hf js).1 (e2 ▸ (hf js2).1)
  letI inst : Fintype { q : List α // q.Perm roster } :=
    Fintype.subtype ⟨(roster.permutations : Multiset (List α)),
      Multiset.coe_nodup.2 (List.nodup_permutations roster hnd)⟩
      (fun q => by simp [List.mem_permutations])
  have hcard : Fintype.card (IndexSeq roster.length)
      = Fintype.card { q : List α // q.Perm roster } := by
    rw [card_indexSeq, Fintype.subtype_card]
    simp [List.length_permutations]
  have hbij : Function.Bijective F :=
    (Fintype.bijective_iff_injective_and_card F).2 ⟨hinj, hcard⟩
  obtain ⟨js, hjs⟩ := hbij.2 ⟨p, hp⟩
  have hfp : f js = p := congrArg Subtype.val hjs
  refine ⟨js, hfp ▸ (hf js).1, ?_⟩
  intro js2 h2
  exact shuffleArray_inj roster p hnd js2 js h2 (hfp ▸ (hf js).1)

/-- C5 (unbiased shuffle): for a roster of `n` pairwise distinct names, every sequence of
draws `j_i ≤ i` (`i = n - 1, ..., 1`) makes `shuffleArray` return a rearrangement of the
roster, every rearrangement is returned for exactly one sequence of draws, and there are
`n!` sequences: of the `n!` equally likely sequences exactly one yields a given
rearrangement, which is the probability `1 / n!`. -/
theorem shuffleArray_unbiased {α : Type} [DecidableEq α] (roster : List α)
    (hnd : roster.Nodup) :
    (∀ js : IndexSeq roster.length,
      ∃ p, shuffleArray js.toRnd roster = some p ∧ p.Perm roster) ∧
    (∀ p, p.Perm roster →
      ∃! js : IndexSeq roster.length, shuffleArray js.toRnd roster = some p) ∧
    Fintype.card (IndexSeq roster.length) = roster.length.factorial ∧
    (∀ p, p.Perm roster →
      ((Finset.univ.filter
          (fun js : IndexSeq roster.length => shuffleArray js.toRnd roster = some p)).card : ℚ)
        / (Fintype.card (IndexSeq roster.length) : ℚ) = 1 / (roster.length.factorial : ℚ)) := by
  refine ⟨fun js => shuffleArray_perm js.toRnd roster (toRnd_valid js),
    fun p hp => shuffleArray_exists_unique roster hnd p hp, card_indexSeq _, ?_⟩
  intro p hp
  obtain ⟨js, hjs, huniq⟩ := shuffleArray_exists_unique roster hnd p hp
  have hone : (Finset.univ.filter
      (fun js : IndexSeq roster.length => shuffleArray js.toRnd roster = some p)).card = 1 := by
    rw [Finset.card_eq_one]
    refine ⟨js, ?_⟩
    ext x
    simp only [Finset.mem_filter, Finset.mem_univ, true_and, Finset.mem_singleton]
    exact ⟨fun hx => huniq x hx, fun hx => hx ▸ hjs⟩
  rw [hone, card_indexSeq]
  simp

/-- Witness of C5: the roster `[A, B, C]`. -/
theorem shuffleArray_unbiased_witness :
    ["A", "B", "C"].Nodup ∧
    (∀ p, p.Perm ["A", "B", "C"] →
      ∃! js : IndexSeq ["A", "B", "C"].length,
        shuffleArray js.toRnd ["A", "B", "C"] = some p) ∧
    Fintype.card (IndexSeq ["A", "B", "C"].length) = 6 :=
  ⟨by decide, (shuffleArray_unbiased ["A", "B", "C"] (by decide)).2.1,
    (shuffleArray_unbiased ["A", "B", "C"] (by decide)).2.2.1⟩

/-! ## The timer discipline -/

theorem clearTimers_of_inv (s : State) (h : Inv s) :
    clearTimers s = { s with stageTimeoutRef := none, stepIntervalRef := none, timers := [] } := by
  obtain ⟨_, hst, hsp, ht⟩ := h
  rcases s with ⟨players, isDrawing, revealIndex, teams, waiting, stRef, spRef, timers, nextId, now⟩
  simp only at hst hsp ht
  cases stRef with
  | none =>
    cases spRef with
    | none =>
      rcases ht with ht | ⟨t, _, ht, _⟩
      · simp [clearTimers, ht]
      · simp at ht
    | some b =>
      have hb := (hsp b rfl).1
      have hb0 : b ≠ 0 := by omega
      rcases ht with ht | ⟨t, ht, hr, _⟩
      · simp [clearTimers, truthy, clearInterval, ht, hb0]
      · simp at hr
        subst hr
        simp [clearTimers, truthy, clearInterval, ht, hb0]
  | some a =>
    have ha := (hst a rfl).1
    have ha0 : a ≠ 0 := by omega
    cases spRef with
    | none =>
      rcases ht with ht | ⟨t, ht, hr, _⟩
      · simp [clearTimers, truthy, clearTimeout, ht, ha0]
      · simp at hr
        subst hr
        simp [clearTimers, truthy, clearTimeout, ht, ha0]
    | some b =>
      have hb := (hsp b rfl).1
      have hb0 : b ≠ 0 := by omega
      rcases ht with ht | ⟨t, ht, hr, _⟩
      · simp [clearTimers, truthy, clearTimeout, clearInterval, ht, ha0, hb0]
      · simp at hr
        rcases hr with hr | hr
        · subst hr
          simp [clearTimers, truthy, clearTimeout, clearInterval, ht, ha0, hb0]
        · subst hr
          by_cases e : t.id = a
          · simp [clearTimers, truthy, clearTimeout, clearInterval, ht, ha0, hb0, e]
          · simp [clearTimers, truthy, clearTimeout, clearInterval, ht, ha0, hb0, e]

theorem drawTeams_cases (rnd : Nat → Nat) (players : List String) (s s2 : State)
    (h : drawTeams rnd players s = some s2) :
    (players.length < 2 ∧ s2 = s) ∨
    (2 ≤ players.length ∧ ∃ order, shuffleArray rnd players = some order ∧
      drawTeams rnd players s = some s2) := by
  by_cases h2 : players.length < 2
  · left
    rw [drawTeams_guard rnd players s h2] at h
    exact ⟨h2, (Option.some.inj h).symm⟩
  · right
    refine ⟨by omega, ?_⟩
    cases ho : shuffleArray rnd players with
    | none =>
      have hc : canDraw players = true := by simp [canDraw]; omega
      simp [drawTeams, hc, ho] at h
    | some order => exact ⟨order, rfl, h⟩

theorem drawTeams_inv_spec (rnd : Nat → Nat) (players : List String) (s : State)
    (order : List String) (h2 : 2 ≤ players.length)
    (ho : shuffleArray rnd players = some order) (hinv : Inv s) :
    drawTeams rnd players s = some
      { s with
        teams := (List.range (order.length / 2)).map
          (fun k => slice (slice order 0 (order.length / 2 * 2)) (k * 2) (k * 2 + 2)),
        waiting := order.drop (order.length / 2 * 2),
        isDrawing := true,
        revealIndex := -1,
        timers := [{ id := s.nextId, due := s.now + spinMs (order.length / 2), period := none,
                     cb := Callback.stage (order.length / 2) }],
        nextId := s.nextId + 1,
        stageTimeoutRef := some s.nextId,
        stepIntervalRef := none } := by
  rw [drawTeams_spec rnd players s order h2 ho, clearTimers_of_inv s hinv]
  simp

theorem fireNext_empty (s : State) (ht : s.timers = []) : fireNext s = s := by
  simp [fireNext, nextTimer, ht]

theorem fireNext_single (s : State) (t : Timer) (ht : s.timers = [t]) :
    fireNext s = fire t s := by
  simp [fireNext, nextTimer, ht]

theorem reschedule_single (s : State) (t : Timer) (x : Nat) (ht : s.timers = [t]) :
    reschedule t { s with now := x } =
      { s with
        now := x,
        timers := match t.period with
          | none => []
          | some p => [{ t with due := t.due + p, cb := advanceClosure t.cb }] } := by
  unfold reschedule
  cases hp : t.period with
  | none => simp [ht]
  | some p => simp [ht, hp]

theorem inv_reschedule (s : State) (t : Timer) (x : Nat) (hinv : Inv s) (ht : s.timers = [t]) :
    Inv (reschedule t { s with now := x }) := by
  rw [reschedule_single s t x ht]
  obtain ⟨h1, hst, hsp, htm⟩ := hinv
  refine ⟨h1, hst, hsp, ?_⟩
  rcases htm with htm | ⟨u, hu, hr, hc⟩
  · rw [htm] at ht; cases ht
  · rw [hu] at ht
    cases ht
    cases hp : t.period with
    | none => left; rfl
    | some p =>
      right
      refine ⟨_, rfl, hr, ?_⟩
      intro total hcb
      cases hk : t.cb with
      | stage n => rw [hc n hk] at hp; cases hp
      | tick n i => simp [hk, advanceClosure] at hcb

theorem fire_stage (s : State) (t : Timer) (total : Nat) (hinv : Inv s) (ht : s.timers = [t])
    (hcb : t.cb = Callback.stage total) :
    fireNext s =
      { s with
        now := max s.now t.due,
        revealIndex := 0,
        timers := [{ id := s.nextId, due := max s.now t.due + 900, period := some 900,
                     cb := Callback.tick total 0 }],
        nextId := s.nextId + 1,
        stepIntervalRef := some s.nextId } := by
  have hp : t.period = none := by
    obtain ⟨_, _, _, htm⟩ := hinv
    rcases htm with htm | ⟨u, hu, _, hc⟩
    · rw [htm] at ht; cases ht
    · rw [hu] at ht; cases ht; exact hc total hcb
  rw [fireNext_single s t ht]
  unfold fire
  rw [reschedule_single s t _ ht, hcb, hp]
  simp [runCallback, setInterval]

theorem fire_tick (s : State) (t : Timer) (total i : Nat) (hinv : Inv s) (ht : s.timers = [t])
    (hcb : t.cb = Callback.tick total i) :
    fireNext s =
      if i + 1 ≥ total then
        { s with now := max s.now t.due, timers := [], stageTimeoutRef := none,
                 stepIntervalRef := none, isDrawing := false }
      else
        { s with
          now := max s.now t.due,
          revealIndex := ((i + 1 : Nat) : Int),
          timers := match t.period with
            | none => []
            | some p => [{ t with due := t.due + p, cb := advanceClosure t.cb }] } := by
  rw [fireNext_single s t ht]
  unfold fire
  rw [hcb]
  simp only [runCallback]
  split
  · rw [clearTimers_of_inv _ (inv_reschedule s t _ hinv ht), reschedule_single s t _ ht]
  · rw [reschedule_single s t _ ht, hcb]

theorem fireNext_inv (s : State) (hinv : Inv s) : Inv (fireNext s) := by
  have hinv0 := hinv
  obtain ⟨h1, hst, hsp, htm⟩ := hinv
  rcases htm with htm | ⟨t, ht, hr, hc⟩
  · rw [fireNext_empty s htm]; exact hinv0
  · cases hk : t.cb with
    | stage total =>
      rw [fire_stage s t total hinv0 ht hk]
      refine ⟨by simp, ?_, ?_, ?_⟩
      · intro id hid
        have := hst id hid
        simp only at this ⊢
        omega
      · intro id hid
        simp only [Option.some.injEq] at hid
        subst hid
        simp only
        omega
      · right
        refine ⟨_, rfl, Or.inr rfl, ?_⟩
        intro n h
        cases h
    | tick total i =>
      rw [fire_tick s t total i hinv0 ht hk]
      split
      · refine ⟨h1, ?_, ?_, Or.inl rfl⟩
        · intro id h; cases h
        · intro id h; cases h
      · refine ⟨h1, hst, hsp, ?_⟩
        cases hp : t.period with
        | none => left; rfl
        | some p =>
          right
          refine ⟨_, rfl, hr, ?_⟩
          intro n hcb
          simp [hk, advanceClosure] at hcb

theorem step_inv (e : Event) (s s2 : State) (hinv : Inv s) (h : step e s = some s2) :
    Inv s2 := by
  have drawCase : ∀ (rnd : Nat → Nat) (ps : List String),
      drawTeams rnd ps s = some s2 → Inv s2 := by
    intro rnd ps hd
    rcases drawTeams_cases rnd ps s s2 hd with ⟨_, e⟩ | ⟨h2, order, ho, _⟩
    · rw [e]; exact hinv
    · rw [drawTeams_inv_spec rnd ps s order h2 ho hinv] at hd
      cases hd
      obtain ⟨h1, _, _, _⟩ := hinv
      refine ⟨by simp, ?_, ?_, ?_⟩
      · intro id hid
        simp only [Option.some.injEq] at hid
        subst hid
        simp only
        omega
      · intro id hid
        cases hid
      · right
        refine ⟨_, rfl, Or.inl rfl, ?_⟩
        intro n _
        rfl
  cases e with
  | setPlayers ps => simp [step] at h; subst h; exact hinv
  | draw rnd => exact drawCase rnd s.players h
  | staleDraw rnd ps => exact drawCase rnd ps h
  | elapse d =>
    simp only [step] at h
    split at h
    · cases h; exact hinv
    · cases h; exact hinv
  | fire => simp [step] at h; subst h; exact fireNext_inv s hinv
  | foreignTimer =>
    simp [step] at h
    subst h
    obtain ⟨h1, hst, hsp, htm⟩ := hinv
    refine ⟨by simp, ?_, ?_, htm⟩
    · intro id hid
      have := hst id hid
      simp only at this ⊢
      omega
    · intro id hid
      have := hsp id hid
      simp only at this ⊢
      omega

theorem initialState_inv : Inv initialState := by
  refine ⟨by decide, ?_, ?_, Or.inl rfl⟩
  · intro id h; cases h
  · intro id h; cases h

theorem reachable_inv (s : State) (h : Reachable s) : Inv s := by
  induction h with
  | start => exact initialState_inv
  | next e _ hstep ih => exact step_inv e _ _ ih hstep

/-! ## The reveal, firing by firing -/

theorem phase_draw (rnd : Nat → Nat) (players : List String) (s : State)
    (order : List String) (h2 : 2 ≤ players.length)
    (ho : shuffleArray rnd players = some order) (hinv : Inv s) :
    ∃ s0, drawTeams rnd players s = some s0 ∧ s0.teams.length = order.length / 2 ∧
      s0.timers = [{ id := s.nextId, due := s.now + spinMs (order.length / 2), period := none,
                     cb := Callback.stage (order.length / 2) }] ∧
      s0.stageTimeoutRef = some s.nextId ∧ s0.stepIntervalRef = none ∧
      s0.now = s.now ∧ s0.players = s.players ∧
      Phase (order.length / 2) s.now s0.teams s0.waiting 0 s0 := by
  have hd := drawTeams_inv_spec rnd players s order h2 ho hinv
  have hi : ∀ s0, drawTeams rnd players s = some s0 → Inv s0 := fun s0 h0 =>
    step_inv (Event.staleDraw rnd players) s s0 hinv h0
  refine ⟨_, hd, by simp, rfl, rfl, rfl, rfl, rfl, hi _ hd, rfl, rfl, ?_, ?_, ?_, ?_, ?_⟩
  · simp
  · simp
  · intro _
    exact ⟨s.nextId, rfl, by simp⟩
  · intro h; omega
  · intro h; omega

theorem phase_other (total t0 : Nat) (teams : List (List String)) (waiting : List String)
    (m : Nat) (e : Event) (s s2 : State) (hd : e.isDraw = false) (hf : fires [e] = 0)
    (hp : Phase total t0 teams waiting m s) (h : step e s = some s2) :
    Phase total t0 teams waiting m s2 := by
  have hinv2 : Inv s2 := step_inv e s s2 hp.1 h
  obtain ⟨_, ht, hw, hr, hdr, h0, h1, h2⟩ := hp
  cases e with
  | setPlayers ps =>
    simp [step] at h
    subst h
    exact ⟨hinv2, ht, hw, hr, hdr, h0, h1, h2⟩
  | draw rnd => simp [Event.isDraw] at hd
  | staleDraw rnd ps => simp [Event.isDraw] at hd
  | fire => simp [fires] at hf
  | foreignTimer =>
    simp [step] at h
    subst h
    exact ⟨hinv2, ht, hw, hr, hdr, h0, h1, h2⟩
  | elapse d =>
    simp only [step] at h
    split at h
    · rename_i hall
      cases h
      refine ⟨hinv2, ht, hw, hr, hdr, ?_, ?_, ?_⟩
      · intro hm
        obtain ⟨id, htm, hnow⟩ := h0 hm
        refine ⟨id, htm, ?_⟩
        simp [htm] at hall
        simpa using hall
      · intro hm1 hm2
        obtain ⟨id, htm, hlo, hhi⟩ := h1 hm1 hm2
        refine ⟨id, htm, ?_, ?_⟩
        · simp only; omega
        · simp [htm] at hall
          simpa using hall
      · intro hm
        obtain ⟨htm, hlo⟩ := h2 hm
        refine ⟨htm, ?_⟩
        simp only; omega
    · cases h
      exact ⟨hinv2, ht, hw, hr, hdr, h0, h1, h2⟩

theorem phase_fire (total t0 : Nat) (teams : List (List String)) (waiting : List String)
    (m : Nat) (s : State) (htot : 1 ≤ total) (hp : Phase total t0 teams waiting m s) :
    Phase total t0 teams waiting (m + 1) (fireNext s) ∧
      (m ≤ total → (fireNext s).now = t0 + spinMs total + 900 * m) := by
  have hinv2 : Inv (fireNext s) := fireNext_inv s hp.1
  obtain ⟨hinv, ht, hw, hr, hdr, h0, h1, h2⟩ := hp
  rcases Nat.eq_zero_or_pos m with hm | hm
  · -- the stage timeout fires
    subst hm
    obtain ⟨id, htm, hnow⟩ := h0 rfl
    have e := fire_stage s _ total hinv htm rfl
    simp only at e
    have hmax : max s.now (t0 + spinMs total) = t0 + spinMs total := max_eq_right hnow
    rw [hmax] at e
    refine ⟨⟨hinv2, ?_, ?_, ?_, ?_, ?_, ?_, ?_⟩, ?_⟩
    · rw [e]; exact ht
    · rw [e]; exact hw
    · rw [e]; simp only; omega
    · rw [e]; simp only; rw [hdr]; simp; omega
    · intro h; omega
    · intro _ _
      rw [e]
      exact ⟨s.nextId, by simp, by simp, by simp⟩
    · intro h; omega
    · intro _; rw [e]; simp
  · by_cases hle : m ≤ total
    · -- the interval fires
      obtain ⟨id, htm, hlo, hhi⟩ := h1 hm hle
      have e := fire_tick s _ total (m - 1) hinv htm rfl
      simp only at e
      have hmax : max s.now (t0 + spinMs total + 900 * m) = t0 + spinMs total + 900 * m :=
        max_eq_right hhi
      rw [hmax] at e
      by_cases hlast : m - 1 + 1 ≥ total
      · rw [if_pos hlast] at e
        have hmt : m = total := by omega
        refine ⟨⟨hinv2, ?_, ?_, ?_, ?_, ?_, ?_, ?_⟩, ?_⟩
        · rw [e]; exact ht
        · rw [e]; exact hw
        · rw [e]; simp only; rw [hr]; omega
        · rw [e]; simp; omega
        · intro h; omega
        · intro _ h; omega
        · intro _
          rw [e]
          exact ⟨rfl, by simp only; omega⟩
        · intro _; rw [e]
      · rw [if_neg hlast] at e
        refine ⟨⟨hinv2, ?_, ?_, ?_, ?_, ?_, ?_, ?_⟩, ?_⟩
        · rw [e]; exact ht
        · rw [e]; exact hw
        · rw [e]; simp only; omega
        · rw [e]; simp only; rw [hdr]; simp; omega
        · intro h; omega
        · intro _ _
          rw [e]
          refine ⟨id, ?_, by simp only; omega, by simp only; omega⟩
          simp only [advanceClosure, List.cons.injEq, Timer.mk.injEq, Callback.tick.injEq,
            and_true, true_and]
          omega
        · intro h; omega
        · intro _; rw [e]
    · -- nothing is pending
      have hlt : total < m := by omega
      obtain ⟨htm, hlo⟩ := h2 hlt
      rw [fireNext_empty s htm]
      refine ⟨⟨hinv, ht, hw, ?_, ?_, ?_, ?_, ?_⟩, ?_⟩
      · rw [hr]; omega
      · rw [hdr]; simp; omega
      · intro h; omega
      · intro _ h; omega
      · intro _; exact ⟨htm, hlo⟩
      · intro h; omega

theorem run_append (a b : List Event) (s : State) :
    run (a ++ b) s = (run a s).bind (run b) := by
  induction a generalizing s with
  | nil => simp [run]
  | cons e es ih =>
    simp only [List.cons_append, run]
    cases step e s with
    | none => simp
    | some s1 => simp [ih]

theorem fires_append (a b : List Event) : fires (a ++ b) = fires a + fires b := by
  induction a with
  | nil => simp [fires]
  | cons e es ih =>
    cases e <;> simp [fires, ih]
    omega

theorem phase_run (total t0 : Nat) (teams : List (List String)) (waiting : List String)
    (htot : 1 ≤ total) :
    ∀ (evs : List Event), (∀ e ∈ evs, e.isDraw = false) → ∀ (m : Nat) (s : State),
      Phase total t0 teams waiting m s →
      ∃ s2, run evs s = some s2 ∧ Phase total t0 teams waiting (m + fires evs) s2 := by
  intro evs
  induction evs with
  | nil => intro _ m s hp; exact ⟨s, rfl, by simpa [fires] using hp⟩
  | cons e es ih =>
    intro hnd m s hp
    have hd : e.isDraw = false := hnd e (List.mem_cons_self e es)
    have hes : ∀ x ∈ es, x.isDraw = false := fun x hx => hnd x (List.mem_cons_of_mem e hx)
    have other : ∀ s1, step e s = some s1 → fires [e] = 0 →
        ∃ s2, run (e :: es) s = some s2 ∧
          Phase total t0 teams waiting (m + (fires [e] + fires es)) s2 := by
      intro s1 h1 hf
      obtain ⟨s2, hr, hp2⟩ := ih hes m s1 (phase_other total t0 teams waiting m e s s1 hd hf hp h1)
      exact ⟨s2, by simp [run, h1, hr], by rw [hf]; simpa using hp2⟩
    have hfa : fires (e :: es) = fires [e] + fires es := fires_append [e] es
    rw [hfa]
    cases e with
    | setPlayers ps => exact other _ rfl rfl
    | draw rnd => simp [Event.isDraw] at hd
    | staleDraw rnd ps => simp [Event.isDraw] at hd
    | foreignTimer => exact other _ rfl rfl
    | elapse d =>
      cases hstep : step (Event.elapse d) s with
      | none =>
        simp only [step] at hstep
        split at hstep <;> cases hstep
      | some s1 => exact other s1 hstep rfl
    | fire =>
      obtain ⟨s2, hr, hp2⟩ := ih hes (m + 1) (fireNext s)
        (phase_fire total t0 teams waiting m s htot hp).1
      refine ⟨s2, by simp [run, step, hr], ?_⟩
      have e : m + (fires [Event.fire] + fires es) = m + 1 + fires es := by
        simp [fires]; omega
      rw [e]
      exact hp2

theorem clearTimers_clock (s : State) :
    (clearTimers s).nextId = s.nextId ∧ (clearTimers s).now = s.now := by
  rcases s with ⟨players, isDrawing, revealIndex, teams, waiting, stRef, spRef, timers, nextId, now⟩
  cases stRef <;> cases spRef <;>
    simp only [clearTimers, truthy, clearTimeout, clearInterval] <;>
    (repeat' split) <;> simp_all

theorem spinMs_mono (a b : Nat) (h : a ≤ b) : spinMs a ≤ spinMs b := by
  unfold spinMs; omega

theorem half_pos (n : Nat) (h : 2 ≤ n) : 1 ≤ n / 2 := by omega

theorem reachable_of_run (evs : List Event) :
    ∀ (s0 s : State), Reachable s0 → run evs s0 = some s → Reachable s := by
  induction evs with
  | nil => intro s0 s h0 h; simp [run] at h; subst h; exact h0
  | cons e es ih =>
    intro s0 s h0 h
    simp only [run] at h
    cases hstep : step e s0 with
    | none => simp [hstep] at h
    | some s1 =>
      simp [hstep] at h
      exact ih s1 s (Reachable.next e h0 hstep) h

theorem midReveal_reachable : Reachable midReveal :=
  reachable_of_run [Event.draw (fun _ => 0), Event.fire] initialState midReveal
    Reachable.start (by decide)

/-! ## The scheduler, draw by draw -/

/-- C6, as stated, fails: with the roster `[A]` in the state of the first render, the draw
does not end with waiting equal to the roster (waiting stays empty). -/
theorem drawTeams_small_roster_counterexample :
    ¬ ∃ s2, drawTeams (fun _ => 0) ["A"] { initialState with players := ["A"] } = some s2 ∧
      s2.teams = [] ∧ s2.waiting = ["A"] ∧ s2.revealIndex = -1 ∧ s2.isDrawing = false := by
  rintro ⟨s2, h, _, hw, _⟩
  rw [drawTeams_guard _ _ _ (by decide)] at h
  cases h
  exact absurd hw (by decide)

/-- C6 (amended): with a roster of fewer than two names `drawTeams` returns at its guard
and changes nothing: teams, waiting, `revealIndex`, `isDrawing` and the pending timers stay
as earlier events left them. In the state of the first render that is no team, nobody
waiting, `revealIndex = -1` and `isDrawing = false`. -/
theorem drawTeams_small_roster (rnd : Nat → Nat) (players : List String) (s : State)
    (h : players.length < 2) :
    drawTeams rnd players s = some s ∧
    drawTeams rnd players { initialState with players := players } =
      some { players := players, isDrawing := false, revealIndex := -1, teams := [],
             waiting := [], stageTimeoutRef := none, stepIntervalRef := none, timers := [],
             nextId := 1, now := 0 } :=
  ⟨drawTeams_guard rnd players s h, drawTeams_guard rnd players _ h⟩

/-- Witness of the amended C6: the roster `[A]` in the middle of a reveal. -/
theorem drawTeams_small_roster_witness :
    ["A"].length < 2 ∧ drawTeams (fun _ => 0) ["A"] midReveal = some midReveal :=
  ⟨by decide, (drawTeams_small_roster (fun _ => 0) ["A"] midReveal (by decide)).1⟩

/-- C7 (spin duration): a draw that produces `total` teams arms its stage timeout, the last
timer handed to the host, to fire `min(1800, 800 + 250 * total)` ms after the call; this
delay does not decrease when `total` grows, never exceeds 1800, is 1800 from four teams on
and is 1550 for three teams. -/
theorem spin_delay (rnd : Nat → Nat) (players : List String) (s : State)
    (h2 : 2 ≤ players.length) (hv : ValidDraws rnd players.length) :
    (∃ s2, drawTeams rnd players s = some s2 ∧ s2.now = s.now ∧
      s2.stageTimeoutRef = some s.nextId ∧
      s2.timers.getLast? = some
        { id := s.nextId, due := s.now + min 1800 (800 + 250 * s2.teams.length),
          period := none, cb := Callback.stage s2.teams.length }) ∧
    (∀ total, spinMs total = min 1800 (800 + 250 * total)) ∧
    (∀ a b, a ≤ b → spinMs a ≤ spinMs b) ∧
    (∀ total, spinMs total ≤ 1800) ∧
    (∀ total, 4 ≤ total → spinMs total = 1800) ∧
    spinMs 3 = 1550 := by
  obtain ⟨order, ho, _⟩ := shuffleArray_perm rnd players hv
  have hc := clearTimers_clock s
  have hsp : ∀ total, spinMs total = min 1800 (800 + 250 * total) := by
    intro total; unfold spinMs; omega
  refine ⟨⟨_, drawTeams_spec rnd players s order h2 ho, ?_, ?_, ?_⟩, hsp,
    spinMs_mono, ?_, ?_, by decide⟩
  · exact hc.2
  · simp only [hc.1]
  · simp only [List.getLast?_append, List.getLast?_singleton, hc.1, hc.2,
      List.length_map, List.length_range, hsp]
    rfl
  · intro total; unfold spinMs; omega
  · intro total h; unfold spinMs; omega

/-- Witness of C7: the default roster drawn in the middle of a reveal. -/
theorem spin_delay_witness :
    2 ≤ DEFAULT_PLAYERS.length ∧ ValidDraws (fun _ => 0) DEFAULT_PLAYERS.length ∧
    ∃ s2, drawTeams (fun _ => 0) DEFAULT_PLAYERS midReveal = some s2 ∧ s2.now = midReveal.now ∧
      s2.stageTimeoutRef = some midReveal.nextId ∧
      s2.timers.getLast? = some
        { id := midReveal.nextId, due := midReveal.now + min 1800 (800 + 250 * s2.teams.length),
          period := none, cb := Callback.stage s2.teams.length } :=
  ⟨by decide, fun _ _ => Nat.zero_le _,
    (spin_delay (fun _ => 0) DEFAULT_PLAYERS midReveal (by decide)
      (fun _ _ => Nat.zero_le _)).1⟩

theorem phase_of_draw (s : State) (hs : Reachable s) (rnd : Nat → Nat) (players : List String)
    (h2 : 2 ≤ players.length) (hv : ValidDraws rnd players.length) :
    ∃ s0, drawTeams rnd players s = some s0 ∧ 1 ≤ s0.teams.length ∧
      s0.timers = [{ id := s.nextId, due := s.now + spinMs s0.teams.length, period := none,
                     cb := Callback.stage s0.teams.length }] ∧
      s0.stageTimeoutRef = some s.nextId ∧ s0.stepIntervalRef = none ∧
      Phase s0.teams.length s.now s0.teams s0.waiting 0 s0 := by
  obtain ⟨order, ho, hperm⟩ := shuffleArray_perm rnd players hv
  obtain ⟨s0, hd, hlen, htm, hst, hsp, _, _, hph⟩ :=
    phase_draw rnd players s order h2 ho (reachable_inv s hs)
  have hpos : 1 ≤ order.length / 2 := half_pos _ (by rw [hperm.length_eq]; exact h2)
  rw [← hlen] at htm hph hpos
  exact ⟨s0, hd, hpos, htm, hst, hsp, hph⟩

/-- C8 (reveal monotonicity): after a draw that passes the guard, in any reachable state,
there is at least one team and, for every continuation without a new draw, the state after
it has `revealIndex = min(k, total) - 1` where `k` is the number of timer firings so far:
the values taken are `-1, 0, ..., total - 1` in this order, one more event leaves
`revealIndex` as it is or raises it by one, `isDrawing` holds exactly while `k ≤ total`, and
once `isDrawing` is false `revealIndex = total - 1`. -/
theorem reveal_monotone (s : State) (hs : Reachable s) (rnd : Nat → Nat)
    (players : List String) (h2 : 2 ≤ players.length) (hv : ValidDraws rnd players.length) :
    ∃ s0, drawTeams rnd players s = some s0 ∧ 1 ≤ s0.teams.length ∧
      ∀ evs : List Event, (∀ e ∈ evs, e.isDraw = false) →
        ∃ s1, run evs s0 = some s1 ∧
          s1.revealIndex = ((min (fires evs) s0.teams.length : Nat) : Int) - 1 ∧
          s1.isDrawing = decide (fires evs ≤ s0.teams.length) ∧
          (s1.isDrawing = false → s1.revealIndex = (s0.teams.length : Int) - 1) ∧
          ∀ e : Event, e.isDraw = false →
            ∃ s2, step e s1 = some s2 ∧
              (s2.revealIndex = s1.revealIndex ∨ s2.revealIndex = s1.revealIndex + 1) := by
  obtain ⟨s0, hd, hpos, _, _, _, hph⟩ := phase_of_draw s hs rnd players h2 hv
  refine ⟨s0, hd, hpos, ?_⟩
  intro evs hnd
  obtain ⟨s1, hr, hp1⟩ := phase_run _ _ _ _ hpos evs hnd 0 s0 hph
  rw [Nat.zero_add] at hp1
  refine ⟨s1, hr, hp1.2.2.2.1, hp1.2.2.2.2.1, ?_, ?_⟩
  · intro hfalse
    have h1 := hp1.2.2.2.2.1
    rw [hfalse] at h1
    have h3 : ¬ fires evs ≤ s0.teams.length := by
      intro hle
      simp [hle] at h1
    rw [hp1.2.2.2.1]
    omega
  · intro e he
    obtain ⟨s2, hr2, hp2⟩ := phase_run _ _ _ _ hpos [e]
      (by intro x hx; simp at hx; subst hx; exact he) (fires evs) s1 hp1
    have hstep : step e s1 = some s2 := by
      cases h : step e s1 with
      | none => simp [run, h] at hr2
      | some s3 => simpa [run, h] using hr2
    refine ⟨s2, hstep, ?_⟩
    rw [hp2.2.2.2.1, hp1.2.2.2.1]
    have hf : fires [e] ≤ 1 := by cases e <;> simp [fires]
    omega

/-- Witness of C8: the default roster drawn in the state of the first render. -/
theorem reveal_monotone_witness :
    Reachable initialState ∧ 2 ≤ DEFAULT_PLAYERS.length ∧
    ValidDraws (fun _ => 0) DEFAULT_PLAYERS.length ∧
    ∃ s0, drawTeams (fun _ => 0) DEFAULT_PLAYERS initialState = some s0 ∧
      1 ≤ s0.teams.length ∧
      ∀ evs : List Event, (∀ e ∈ evs, e.isDraw = false) →
        ∃ s1, run evs s0 = some s1 ∧
          s1.revealIndex = ((min (fires evs) s0.teams.length : Nat) : Int) - 1 ∧
          s1.isDrawing = decide (fires evs ≤ s0.teams.length) ∧
          (s1.isDrawing = false → s1.revealIndex = (s0.teams.length : Int) - 1) ∧
          ∀ e : Event, e.isDraw = false →
            ∃ s2, step e s1 = some s2 ∧
              (s2.revealIndex = s1.revealIndex ∨ s2.revealIndex = s1.revealIndex + 1) :=
  ⟨Reachable.start, by decide, fun _ _ => Nat.zero_le _,
    reveal_monotone initialState Reachable.start (fun _ => 0) DEFAULT_PLAYERS (by decide)
      (fun _ _ => Nat.zero_le _)⟩

/-- C9, as stated, fails: with one team the event that sets `revealIndex` to `0` (at
1050 ms) leaves `isDrawing` true and the interval pending, and with three teams the event
that sets `revealIndex` to `2` (at 1550 + 900 + 900 = 3350 ms) does the same; the reveal is
not finished at that event. -/
theorem reveal_finish_counterexample :
    (∃ s1, run [Event.setPlayers ["A", "B"], Event.draw (fun _ => 0), Event.fire]
        initialState = some s1 ∧
      s1.teams.length = 1 ∧ s1.revealIndex = 0 ∧ s1.now = 1050 ∧
      s1.isDrawing = true ∧ s1.timers ≠ []) ∧
    (∃ s3, run [Event.setPlayers ["A", "B", "C", "D", "E", "F"], Event.draw (fun _ => 0),
        Event.fire, Event.fire, Event.fire] initialState = some s3 ∧
      s3.teams.length = 3 ∧ s3.revealIndex = 2 ∧ s3.now = 3350 ∧
      s3.isDrawing = true ∧ s3.timers ≠ []) :=
  ⟨⟨_, rfl, by decide, by decide, by decide, by decide, by decide⟩,
    ⟨_, rfl, by decide, by decide, by decide, by decide, by decide⟩⟩

/-- C9 (amended): after a draw that passes the guard, the firing number `k + 1` of the
reveal (`k ≤ total` firings before it, no new draw) happens `spinMs + 900 * k` ms after the
draw. For `k < total` it sets `revealIndex` to `k` and leaves `isDrawing` true with the
interval pending; the reveal is finished (`isDrawing` false, no timer pending,
`revealIndex = total - 1`) exactly at `k = total`, that is after `total` ticks of the 900 ms
interval, at `spinMs + 900 * total` ms, one tick after `revealIndex` reached `total - 1`. -/
theorem reveal_finish (s : State) (hs : Reachable s) (rnd : Nat → Nat)
    (players : List String) (h2 : 2 ≤ players.length) (hv : ValidDraws rnd players.length) :
    ∃ s0, drawTeams rnd players s = some s0 ∧ 1 ≤ s0.teams.length ∧
      ∀ pre : List Event, (∀ e ∈ pre, e.isDraw = false) → fires pre ≤ s0.teams.length →
        ∃ s1, run (pre ++ [Event.fire]) s0 = some s1 ∧
          s1.now = s.now + spinMs s0.teams.length + 900 * fires pre ∧
          s1.revealIndex = ((min (fires pre + 1) s0.teams.length : Nat) : Int) - 1 ∧
          s1.isDrawing = decide (fires pre < s0.teams.length) ∧
          (s1.timers = [] ↔ fires pre = s0.teams.length) := by
  obtain ⟨s0, hd, hpos, _, _, _, hph⟩ := phase_of_draw s hs rnd players h2 hv
  refine ⟨s0, hd, hpos, ?_⟩
  intro pre hnd hk
  obtain ⟨s1, hr, hp1⟩ := phase_run _ _ _ _ hpos pre hnd 0 s0 hph
  rw [Nat.zero_add] at hp1
  obtain ⟨hp2, hnow⟩ := phase_fire _ _ _ _ (fires pre) s1 hpos hp1
  refine ⟨fireNext s1, by simp [run_append, hr, run, step], hnow hk, hp2.2.2.2.1, ?_, ?_⟩
  · rw [hp2.2.2.2.2.1]
    exact decide_eq_decide.2 ⟨fun h => by omega, fun h => by omega⟩
  · constructor
    · intro hempty
      by_contra hne
      obtain ⟨id, htm, _⟩ := hp2.2.2.2.2.2.2.1 (by omega) (by omega)
      rw [hempty] at htm
      cases htm
    · intro heq
      exact (hp2.2.2.2.2.2.2.2 (by omega)).1

/-- Witness of the amended C9: the default roster drawn in the middle of a reveal. -/
theorem reveal_finish_witness :
    Reachable midReveal ∧ 2 ≤ DEFAULT_PLAYERS.length ∧
    ValidDraws (fun _ => 0) DEFAULT_PLAYERS.length ∧
    ∃ s0, drawTeams (fun _ => 0) DEFAULT_PLAYERS midReveal = some s0 ∧ 1 ≤ s0.teams.length ∧
      ∀ pre : List Event, (∀ e ∈ pre, e.isDraw = false) → fires pre ≤ s0.teams.length →
        ∃ s1, run (pre ++ [Event.fire]) s0 = some s1 ∧
          s1.now = midReveal.now + spinMs s0.teams.length + 900 * fires pre ∧
          s1.revealIndex = ((min (fires pre + 1) s0.teams.length : Nat) : Int) - 1 ∧
          s1.isDrawing = decide (fires pre < s0.teams.length) ∧
          (s1.timers = [] ↔ fires pre = s0.teams.length) :=
  ⟨midReveal_reachable, by decide, fun _ _ => Nat.zero_le _,
    reveal_finish midReveal midReveal_reachable (fun _ => 0) DEFAULT_PLAYERS (by decide)
      (fun _ _ => Nat.zero_le _)⟩

/-- C10 (cancellation on restart): in every reachable state, with or without a timer
pending, a `drawTeams` that passes the guard leaves exactly one pending timer, its own new
stage timeout, referenced by `stageTimeoutRef`, with `stepIntervalRef` cleared; every timer
that was pending before the call is gone (`clearTimers` has emptied the table before the
new timeout is armed) and has an older handle. From then on, as long
as no further draw is made, at most one timer is pending and `revealIndex` and `isDrawing`
depend only on the number of firings since the new draw. -/
theorem restart_cancels (s : State) (hs : Reachable s) (rnd : Nat → Nat)
    (players : List String) (h2 : 2 ≤ players.length) (hv : ValidDraws rnd players.length) :
    (clearTimers s).timers = [] ∧
    ∃ s0, drawTeams rnd players s = some s0 ∧
      s0.timers = [{ id := s.nextId, due := s.now + spinMs s0.teams.length, period := none,
                     cb := Callback.stage s0.teams.length }] ∧
      s0.stageTimeoutRef = some s.nextId ∧ s0.stepIntervalRef = none ∧
      s0.revealIndex = -1 ∧ s0.isDrawing = true ∧
      (∀ t ∈ s.timers, t.id < s.nextId ∧ t ∉ s0.timers) ∧
      ∀ evs : List Event, (∀ e ∈ evs, e.isDraw = false) →
        ∃ s1, run evs s0 = some s1 ∧ s1.timers.length ≤ 1 ∧
          s1.revealIndex = ((min (fires evs) s0.teams.length : Nat) : Int) - 1 ∧
          s1.isDrawing = decide (fires evs ≤ s0.teams.length) := by
  obtain ⟨s0, hd, hpos, htm, hst, hsp, hph⟩ := phase_of_draw s hs rnd players h2 hv
  refine ⟨by rw [clearTimers_of_inv s (reachable_inv s hs)], s0, hd, htm, hst, hsp, ?_, ?_, ?_, ?_⟩
  · simpa using hph.2.2.2.1
  · simpa using hph.2.2.2.2.1
  · intro t ht
    obtain ⟨_, hr1, hr2, hone⟩ := reachable_inv s hs
    have hlt : t.id < s.nextId := by
      rcases hone with hone | ⟨u, hu, href, _⟩
      · rw [hone] at ht; cases ht
      · rw [hu] at ht
        simp only [List.mem_singleton] at ht
        subst ht
        rcases href with href | href
        · exact (hr1 _ href).2
        · exact (hr2 _ href).2
    refine ⟨hlt, ?_⟩
    rw [htm]
    simp only [List.mem_singleton]
    intro e
    rw [e] at hlt
    simp only at hlt
    omega
  · intro evs hnd
    obtain ⟨s1, hr, hp1⟩ := phase_run _ _ _ _ hpos evs hnd 0 s0 hph
    rw [Nat.zero_add] at hp1
    refine ⟨s1, hr, ?_, hp1.2.2.2.1, hp1.2.2.2.2.1⟩
    rcases hp1.1.2.2.2 with h | ⟨u, hu, _⟩
    · simp [h]
    · simp [hu]

/-- Witness of C10: the default roster drawn again while team 0 is revealed and the
interval of the first draw is pending. -/
theorem restart_cancels_witness :
    Reachable midReveal ∧ midReveal.timers ≠ [] ∧ 2 ≤ DEFAULT_PLAYERS.length ∧
    ValidDraws (fun _ => 0) DEFAULT_PLAYERS.length ∧
    (clearTimers midReveal).timers = [] ∧
    ∃ s0, drawTeams (fun _ => 0) DEFAULT_PLAYERS midReveal = some s0 ∧
      s0.timers = [{ id := midReveal.nextId, due := midReveal.now + spinMs s0.teams.length,
                     period := none, cb := Callback.stage s0.teams.length }] ∧
      s0.stageTimeoutRef = some midReveal.nextId ∧ s0.stepIntervalRef = none ∧
      s0.revealIndex = -1 ∧ s0.isDrawing = true ∧
      (∀ t ∈ midReveal.timers, t.id < midReveal.nextId ∧ t ∉ s0.timers) ∧
      ∀ evs : List Event, (∀ e ∈ evs, e.isDraw = false) →
        ∃ s1, run evs s0 = some s1 ∧ s1.timers.length ≤ 1 ∧
          s1.revealIndex = ((min (fires evs) s0.teams.length : Nat) : Int) - 1 ∧
          s1.isDrawing = decide (fires evs ≤ s0.teams.length) :=
  ⟨midReveal_reachable, by decide, by decide, fun _ _ => Nat.zero_le _,
    restart_cancels midReveal midReveal_reachable (fun _ => 0) DEFAULT_PLAYERS (by decide)
      (fun _ _ => Nat.zero_le _)⟩

/-! ## Roster uniqueness -/

theorem uniquePush_found (trim toLowerCase : String → String) (list : List String)
    (name : String) (h : ∃ n ∈ list, toLowerCase (trim n) = toLowerCase (trim name)) :
    uniquePush trim toLowerCase list name = list := by
  have hany : list.any (fun n => toLowerCase (trim n) == toLowerCase (trim name)) = true := by
    rw [List.any_eq_true]
    obtain ⟨n, hn, e⟩ := h
    exact ⟨n, hn, by simp [e]⟩
  simp [uniquePush, hany]

theorem uniquePush_fresh (trim toLowerCase : String → String) (list : List String)
    (name : String) (h : ¬ ∃ n ∈ list, toLowerCase (trim n) = toLowerCase (trim name)) :
    uniquePush trim toLowerCase list name = list ++ [trim name] := by
  have hany : ¬ list.any (fun n => toLowerCase (trim n) == toLowerCase (trim name)) = true := by
    rw [List.any_eq_true]
    rintro ⟨n, hn, e⟩
    exact h ⟨n, hn, by simpa using e⟩
  simp only [uniquePush, hany]
  rfl

theorem rosterOK_uniquePush (trim toLowerCase : String → String)
    (htrim : ∀ x, trim (trim x) = trim x) (roster : List String) (name : String)
    (hne : trim name ≠ "") (h : RosterOK trim toLowerCase roster) :
    RosterOK trim toLowerCase (uniquePush trim toLowerCase roster name) := by
  by_cases hex : ∃ n ∈ roster, toLowerCase (trim n) = toLowerCase (trim name)
  · rw [uniquePush_found trim toLowerCase roster name hex]; exact h
  · rw [uniquePush_fresh trim toLowerCase roster name hex]
    obtain ⟨h1, h2⟩ := h
    constructor
    · intro n hn
      rcases List.mem_append.1 hn with hn | hn
      · exact h1 n hn
      · simp only [List.mem_singleton] at hn
        subst hn
        exact ⟨hne, htrim name⟩
    · rw [List.pairwise_append]
      refine ⟨h2, List.pairwise_singleton _ _, ?_⟩
      intro a ha b hb
      simp only [List.mem_singleton] at hb
      subst hb
      rw [htrim name]
      intro e
      exact hex ⟨a, ha, e⟩

theorem rosterOK_addPlayer (trim toLowerCase : String → String)
    (htrim : ∀ x, trim (trim x) = trim x) (roster : List String) (name : String)
    (h : RosterOK trim toLowerCase roster) :
    RosterOK trim toLowerCase (addPlayer trim toLowerCase name roster) := by
  unfold addPlayer
  by_cases he : trim name = ""
  · simp only [he, if_true]; exact h
  · simp only [he, if_false]
    exact rosterOK_uniquePush trim toLowerCase htrim roster (trim name)
      (by rw [htrim]; exact he) h

theorem rosterOK_removePlayer (trim toLowerCase : String → String) (roster : List String)
    (n : String) (h : RosterOK trim toLowerCase roster) :
    RosterOK trim toLowerCase (removePlayer n roster) := by
  obtain ⟨h1, h2⟩ := h
  exact ⟨fun m hm => h1 m (List.mem_filter.1 hm).1, h2.filter _⟩

theorem rosterOK_perm (trim toLowerCase : String → String) (roster p : List String)
    (hp : p.Perm roster) (h : RosterOK trim toLowerCase roster) :
    RosterOK trim toLowerCase p := by
  obtain ⟨h1, h2⟩ := h
  refine ⟨fun m hm => h1 m (hp.mem_iff.1 hm), ?_⟩
  exact (List.Perm.pairwise_iff (fun hxy e => hxy e.symm) hp).2 h2

theorem rosterOK_nil (trim toLowerCase : String → String) : RosterOK trim toLowerCase [] := by
  refine ⟨?_, List.Pairwise.nil⟩
  intro n h
  cases h

theorem rosterOK_runOps (trim toLowerCase : String → String)
    (htrim : ∀ x, trim (trim x) = trim x)
    (hdef : RosterOK trim toLowerCase DEFAULT_PLAYERS) :
    ∀ (ops : List RosterOp) (roster : List String), OpsValid ops →
      RosterOK trim toLowerCase roster →
      ∃ r, runOps trim toLowerCase ops roster = some r ∧ RosterOK trim toLowerCase r := by
  intro ops
  induction ops with
  | nil => intro roster _ h; exact ⟨roster, rfl, h⟩
  | cons op ops ih =>
    intro roster hv h
    have hv2 : OpsValid ops := fun rnd hm => hv rnd (List.mem_cons_of_mem op hm)
    have next : ∀ r1, applyOp trim toLowerCase op roster = some r1 →
        RosterOK trim toLowerCase r1 →
        ∃ r, runOps trim toLowerCase (op :: ops) roster = some r ∧
          RosterOK trim toLowerCase r := by
      intro r1 e h1
      obtain ⟨r, hr, hok⟩ := ih r1 hv2 h1
      exact ⟨r, by simp [runOps, e, hr], hok⟩
    cases op with
    | addPlayer name => exact next _ rfl (rosterOK_addPlayer trim toLowerCase htrim roster name h)
    | removePlayer n => exact next _ rfl (rosterOK_removePlayer trim toLowerCase roster n h)
    | clearAll => exact next _ rfl (rosterOK_nil trim toLowerCase)
    | restoreDefaults => exact next _ rfl hdef
    | shuffleNames rnd =>
      have hvr : ValidDraws rnd roster.length :=
        fun i _ => hv rnd (List.mem_cons_self _ _) i
      obtain ⟨p, hp, hperm⟩ := shuffleArray_perm rnd roster hvr
      exact next p hp (rosterOK_perm trim toLowerCase roster p hperm h)

theorem dropWhile_of_head (p : Char → Bool) :
    ∀ (l : List Char) (hne : l ≠ []), p (l.head hne) = false → List.dropWhile p l = l := by
  intro l hne h
  cases l with
  | nil => exact absurd rfl hne
  | cons y ys =>
    simp only [List.head_cons] at h
    simp [List.dropWhile, h]

theorem jsTrim_idempotent (x : String) : jsTrim (jsTrim x) = jsTrim x := by
  unfold jsTrim
  simp only
  congr 1
  have hpre := List.rdropWhile_prefix isWhiteSpace (List.dropWhile isWhiteSpace x.data)
  have hdrop : List.dropWhile isWhiteSpace
      (List.rdropWhile isWhiteSpace (List.dropWhile isWhiteSpace x.data))
      = List.rdropWhile isWhiteSpace (List.dropWhile isWhiteSpace x.data) := by
    by_cases hne : List.rdropWhile isWhiteSpace (List.dropWhile isWhiteSpace x.data) = []
    · rw [hne]; rfl
    · have hne2 : List.dropWhile isWhiteSpace x.data ≠ [] := by
        intro e
        rw [e] at hne
        exact hne rfl
      have hh := hpre.head hne
      have hnot := List.head_dropWhile_not isWhiteSpace x.data hne2
      rw [← hh] at hnot
      exact dropWhile_of_head isWhiteSpace _ hne hnot
  rw [hdrop, List.rdropWhile_idempotent]

theorem rosterOK_default (trim toLowerCase : String → String)
    (htrimDef : DEFAULT_PLAYERS.map trim = DEFAULT_PLAYERS)
    (hlowerDef : DEFAULT_PLAYERS.map toLowerCase = ["joachim", "edis", "amalie", "åshild"]) :
    RosterOK trim toLowerCase DEFAULT_PLAYERS := by
  simp only [DEFAULT_PLAYERS, List.map_cons, List.map_nil, List.cons.injEq, and_true]
    at htrimDef hlowerDef
  obtain ⟨t1, t2, t3, t4⟩ := htrimDef
  obtain ⟨l1, l2, l3, l4⟩ := hlowerDef
  constructor
  · intro n hn
    simp only [DEFAULT_PLAYERS, List.mem_cons, List.mem_singleton, List.not_mem_nil,
      or_false] at hn
    rcases hn with rfl | rfl | rfl | rfl
    · exact ⟨by decide, t1⟩
    · exact ⟨by decide, t2⟩
    · exact ⟨by decide, t3⟩
    · exact ⟨by decide, t4⟩
  · simp only [DEFAULT_PLAYERS, List.pairwise_cons, List.mem_cons, List.mem_singleton,
      List.not_mem_nil, or_false, forall_eq_or_imp, forall_eq, t1, t2, t3, t4, l1, l2, l3, l4,
      List.Pairwise.nil, and_true, IsEmpty.forall_iff, implies_true]
    decide

theorem jsTrim_default : DEFAULT_PLAYERS.map jsTrim = DEFAULT_PLAYERS := by decide

theorem latin1LowerCase_default :
    DEFAULT_PLAYERS.map latin1LowerCase = ["joachim", "edis", "amalie", "åshild"] := by
  decide

/-- An example run: names that differ from an entry only by case and outer blanks
(`edis`, `ÅSHILD`, `åshild`) are not added, a new name is added trimmed at the end, an
input of blanks adds nothing, a removed name is gone. -/
theorem runOps_example :
    runOps jsTrim latin1LowerCase
      [RosterOp.addPlayer "  edis ", RosterOp.addPlayer "åshild", RosterOp.addPlayer " ÅSHILD",
        RosterOp.addPlayer " Bo ", RosterOp.addPlayer "   ", RosterOp.removePlayer "Joachim"]
      DEFAULT_PLAYERS
      = some ["Edis", "Amalie", "Åshild", "Bo"] := by
  decide

/-- C11 (roster uniqueness): let `trim` be idempotent, let it keep each of the four default
names, and let `toLowerCase` send them to `joachim`, `edis`, `amalie` and `åshild`, as the
built-ins do. Then every sequence of Add, remove, Remove all, Restore defaults and Shuffle
Names (draws `j ≤ i`), started from the default roster, ends in a roster in which every
name is non-empty and trimmed and no two names are equal after trimming and lower-casing.
Moreover `uniquePush(list, name)` is `list` when some entry equals `name` after trimming
and lower-casing, and otherwise `list` with `trim(name)` appended at the end. -/
theorem roster_unique (trim toLowerCase : String → String)
    (htrim : ∀ x, trim (trim x) = trim x)
    (htrimDef : DEFAULT_PLAYERS.map trim = DEFAULT_PLAYERS)
    (hlowerDef : DEFAULT_PLAYERS.map toLowerCase = ["joachim", "edis", "amalie", "åshild"]) :
    (∀ ops : List RosterOp, OpsValid ops →
      ∃ r, runOps trim toLowerCase ops DEFAULT_PLAYERS = some r ∧
        (∀ n ∈ r, n ≠ "" ∧ trim n = n) ∧
        r.Pairwise (fun a b => toLowerCase (trim a) ≠ toLowerCase (trim b))) ∧
    (∀ (list : List String) (name : String),
      (∃ n ∈ list, toLowerCase (trim n) = toLowerCase (trim name)) →
      uniquePush trim toLowerCase list name = list) ∧
    (∀ (list : List String) (name : String),
      (¬ ∃ n ∈ list, toLowerCase (trim n) = toLowerCase (trim name)) →
      uniquePush trim toLowerCase list name = list ++ [trim name]) := by
  have hdef := rosterOK_default trim toLowerCase htrimDef hlowerDef
  refine ⟨?_, uniquePush_found trim toLowerCase, uniquePush_fresh trim toLowerCase⟩
  intro ops hv
  obtain ⟨r, hr, hok⟩ := rosterOK_runOps trim toLowerCase htrim hdef ops DEFAULT_PLAYERS hv hdef
  exact ⟨r, hr, hok.1, hok.2⟩

/-- Witness of C11: `trim` removes white space from both ends, `toLowerCase` lowers the
letters of Basic Latin and Latin-1, and the operations are three Adds (one of them
`åshild`, which the roster already holds up to case), a Shuffle Names and a remove. -/
theorem roster_unique_witness :
    (∀ x, jsTrim (jsTrim x) = jsTrim x) ∧
    DEFAULT_PLAYERS.map jsTrim = DEFAULT_PLAYERS ∧
    DEFAULT_PLAYERS.map latin1LowerCase = ["joachim", "edis", "amalie", "åshild"] ∧
    OpsValid [RosterOp.addPlayer "  edis ", RosterOp.addPlayer "åshild",
      RosterOp.addPlayer " Bo ", RosterOp.shuffleNames (fun _ => 0),
      RosterOp.removePlayer "Joachim"] ∧
    ∃ r, runOps jsTrim latin1LowerCase
        [RosterOp.addPlayer "  edis ", RosterOp.addPlayer "åshild",
          RosterOp.addPlayer " Bo ", RosterOp.shuffleNames (fun _ => 0),
          RosterOp.removePlayer "Joachim"]
        DEFAULT_PLAYERS = some r ∧
      (∀ n ∈ r, n ≠ "" ∧ jsTrim n = n) ∧
      r.Pairwise (fun a b => latin1LowerCase (jsTrim a) ≠ latin1LowerCase (jsTrim b)) :=
  ⟨jsTrim_idempotent, jsTrim_default, latin1LowerCase_default,
    (fun rnd h i => by
      simp only [List.mem_cons, List.mem_singleton, RosterOp.shuffleNames.injEq, reduceCtorEq,
        false_or, or_false, List.not_mem_nil] at h
      subst h
      exact Nat.zero_le _),
    (roster_unique jsTrim latin1LowerCase jsTrim_idempotent jsTrim_default
      latin1LowerCase_default).1 _
      (fun rnd h i => by
        simp only [List.mem_cons, List.mem_singleton, RosterOp.shuffleNames.injEq, reduceCtorEq,
          false_or, or_false, List.not_mem_nil] at h
        subst h
        exact Nat.zero_le _)⟩

/-! ## The reveal index stays inside the assignment -/

theorem fireNext_drawInv (s : State) (h : DrawInv s) : DrawInv (fireNext s) := by
  have hinv2 := fireNext_inv s h.1
  obtain ⟨hinv, hlo, hhi, htm⟩ := h
  rcases hinv.2.2.2 with hempty | ⟨t, ht, _, _⟩
  · rw [fireNext_empty s hempty]
    exact ⟨hinv, hlo, hhi, htm⟩
  · have htot := htm t (by rw [ht]; exact List.mem_singleton_self t)
    cases hk : t.cb with
    | stage total =>
      have e := fire_stage s t total hinv ht hk
      rw [hk] at htot
      simp only [Callback.total] at htot
      refine ⟨hinv2, ?_, ?_, ?_⟩
      · rw [e]; simp
      · rw [e]; simp only; omega
      · intro u hu
        rw [e] at hu ⊢
        simp only [List.mem_singleton] at hu
        subst hu
        exact ⟨htot.1, htot.2⟩
    | tick total i =>
      have e := fire_tick s t total i hinv ht hk
      rw [hk] at htot
      simp only [Callback.total] at htot
      by_cases hlast : i + 1 ≥ total
      · rw [if_pos hlast] at e
        refine ⟨hinv2, ?_, ?_, ?_⟩
        · rw [e]; exact hlo
        · rw [e]; exact hhi
        · intro u hu
          rw [e] at hu
          cases hu
      · rw [if_neg hlast] at e
        refine ⟨hinv2, ?_, ?_, ?_⟩
        · rw [e]; simp only; omega
        · rw [e]; simp only; omega
        · intro u hu
          rw [e] at hu ⊢
          simp only at hu ⊢
          cases hp : t.period with
          | none => rw [hp] at hu; cases hu
          | some p =>
            rw [hp] at hu
            simp only [List.mem_singleton] at hu
            subst hu
            simp only [hk, advanceClosure, Callback.total]
            exact htot

theorem drawTeams_drawInv (rnd : Nat → Nat) (players : List String) (s s2 : State)
    (h : DrawInv s) (hd : drawTeams rnd players s = some s2) : DrawInv s2 := by
  have hinv2 : Inv s2 := step_inv (Event.staleDraw rnd players) s s2 h.1 hd
  rcases drawTeams_cases rnd players s s2 hd with ⟨_, e⟩ | ⟨h2, order, ho, _⟩
  · rw [e]; exact h
  · have hlen : order.length = players.length :=
      (shuffleArray_some_perm rnd players order ho).length_eq
    rw [drawTeams_inv_spec rnd players s order h2 ho h.1] at hd
    cases hd
    refine ⟨hinv2, ?_, ?_, ?_⟩
    · simp
    · simp only [List.length_map, List.length_range]; omega
    · intro u hu
      simp only [List.mem_singleton] at hu
      subst hu
      simp only [Callback.total, List.length_map, List.length_range, true_and]
      omega

theorem step_drawInv (e : Event) (s s2 : State) (h : DrawInv s) (hstep : step e s = some s2) :
    DrawInv s2 := by
  cases e with
  | setPlayers ps => simp [step] at hstep; subst hstep; exact h
  | draw rnd => exact drawTeams_drawInv rnd s.players s s2 h hstep
  | staleDraw rnd ps => exact drawTeams_drawInv rnd ps s s2 h hstep
  | elapse d =>
    simp only [step] at hstep
    split at hstep
    · cases hstep; exact h
    · cases hstep; exact h
  | fire => simp [step] at hstep; subst hstep; exact fireNext_drawInv s h
  | foreignTimer =>
    have hinv2 := step_inv Event.foreignTimer s s2 h.1 hstep
    simp [step] at hstep
    subst hstep
    exact ⟨hinv2, h.2.1, h.2.2.1, h.2.2.2⟩

theorem initialState_drawInv : DrawInv initialState := by
  refine ⟨initialState_inv, by decide, by decide, ?_⟩
  intro t ht
  cases ht

theorem reachable_drawInv (s : State) (h : Reachable s) : DrawInv s := by
  induction h with
  | start => exact initialState_drawInv
  | next e _ hstep ih => exact step_drawInv e _ _ ih hstep

/-- C13 (reveal index in range): in every state reachable from the first render by roster
edits, draws (restarts during a reveal included), passing time and timer firings,
`-1 ≤ revealIndex ≤ teams.length - 1`; at most one timer is pending and the `total` its
callback captured is the number of teams of the current assignment, so no timer of an
earlier draw is left to move `revealIndex`. -/
theorem revealIndex_in_range (s : State) (h : Reachable s) :
    -1 ≤ s.revealIndex ∧ s.revealIndex ≤ (s.teams.length : Int) - 1 ∧
    s.timers.length ≤ 1 ∧ ∀ t ∈ s.timers, t.cb.total = s.teams.length := by
  obtain ⟨hinv, hlo, hhi, htm⟩ := reachable_drawInv s h
  refine ⟨hlo, hhi, ?_, fun t ht => (htm t ht).1⟩
  rcases hinv.2.2.2 with he | ⟨u, hu, _⟩
  · simp [he]
  · simp [hu]

/-- Witness of C13: the default roster in the middle of a reveal. -/
theorem revealIndex_in_range_witness :
    Reachable midReveal ∧
    -1 ≤ midReveal.revealIndex ∧ midReveal.revealIndex ≤ (midReveal.teams.length : Int) - 1 ∧
    midReveal.timers.length ≤ 1 ∧ ∀ t ∈ midReveal.timers, t.cb.total = midReveal.teams.length :=
  ⟨midReveal_reachable, revealIndex_in_range midReveal midReveal_reachable⟩

/-! ## The name reel -/

theorem reelClear_of_inv (r : Reel) (h : ReelInv r) :
    reelClear r = { r with timeoutRef := none, intervalRef := none, timers := [] } := by
  obtain ⟨_, hst, hsp, ht⟩ := h
  rcases r with ⟨display, spRef, stRef, timers, nextId, now⟩
  simp only at hst hsp ht
  cases stRef with
  | none =>
    cases spRef with
    | none =>
      rcases ht with ht | ⟨t, _, ht, _⟩
      · simp [reelClear, ht]
      · simp at ht
    | some b =>
      have hb := (hsp b rfl).1
      have hb0 : b ≠ 0 := by omega
      rcases ht with ht | ⟨t, ht, hr, _⟩
      · simp [reelClear, truthy, ht, hb0]
      · simp at hr
        subst hr
        simp [reelClear, truthy, ht, hb0]
  | some a =>
    have ha := (hst a rfl).1
    have ha0 : a ≠ 0 := by omega
    cases spRef with
    | none =>
      rcases ht with ht | ⟨t, ht, hr, _⟩
      · simp [reelClear, truthy, ht, ha0]
      · simp at hr
        subst hr
        simp [reelClear, truthy, ht, ha0]
    | some b =>
      have hb := (hsp b rfl).1
      have hb0 : b ≠ 0 := by omega
      rcases ht with ht | ⟨t, ht, hr, _⟩
      · simp [reelClear, truthy, ht, ha0, hb0]
      · simp at hr
        rcases hr with hr | hr
        · subst hr
          simp [reelClear, truthy, ht, ha0, hb0]
        · subst hr
          by_cases e : t.id = a
          · simp [reelClear, truthy, ht, ha0, hb0, e]
          · simp [reelClear, truthy, ht, ha0, hb0, e]

theorem reelInv_cleared (r : Reel) (h : ReelInv r) :
    ReelInv { r with timeoutRef := none, intervalRef := none, timers := [] } := by
  refine ⟨h.1, ?_, ?_, Or.inl rfl⟩
  · intro id e; cases e
  · intro id e; cases e

theorem reelEffect_of_inv (p : ReelProps) (r : Reel) (h : ReelInv r) :
    reelEffect p r =
      if p.active then
        { r with
          intervalRef := none,
          timers := [{ id := r.nextId, due := r.now + p.delay, period := none,
                       cb := ReelCallback.start p.pool }],
          nextId := r.nextId + 1,
          timeoutRef := some r.nextId }
      else
        { r with timeoutRef := none, intervalRef := none, timers := [],
                 display := some (orPlaceholder p.target) } := by
  unfold reelEffect
  rw [reelClear_of_inv r h]
  cases p.active <;> simp

theorem reelUpdate_of_inv (p : ReelProps) (r : Reel) (h : ReelInv r) :
    reelUpdate p r =
      if p.active then
        { r with
          intervalRef := none,
          timers := [{ id := r.nextId, due := r.now + p.delay, period := none,
                       cb := ReelCallback.start p.pool }],
          nextId := r.nextId + 1,
          timeoutRef := some r.nextId }
      else
        { r with timeoutRef := none, intervalRef := none, timers := [],
                 display := some (orPlaceholder p.target) } := by
  unfold reelUpdate
  rw [reelClear_of_inv r h, reelEffect_of_inv p _ (reelInv_cleared r h)]

theorem reelInv_effect_result (p : ReelProps) (r : Reel) (h : ReelInv r) :
    ReelInv (if p.active then
        { r with
          intervalRef := none,
          timers := [{ id := r.nextId, due := r.now + p.delay, period := none,
                       cb := ReelCallback.start p.pool }],
          nextId := r.nextId + 1,
          timeoutRef := some r.nextId }
      else
        { r with timeoutRef := none, intervalRef := none, timers := [],
                 display := some (orPlaceholder p.target) }) := by
  have h1 := h.1
  cases p.active with
  | false => exact reelInv_cleared _ (by exact ⟨h.1, h.2.1, h.2.2.1, h.2.2.2⟩)
  | true =>
    simp only [if_true]
    refine ⟨by simp, ?_, ?_, ?_⟩
    · intro id e
      simp only [Option.some.injEq] at e
      subst e
      simp only
      omega
    · intro id e; cases e
    · right
      refine ⟨_, rfl, Or.inl rfl, ?_, ?_⟩
      · intro pool _
        rfl
      · intro pool e
        cases e

theorem reelFire_empty (j : Nat) (r : Reel) (h : r.timers = []) : reelFire j r = r := by
  simp [reelFire, reelNextTimer, h]

theorem reelFire_start (j : Nat) (r : Reel) (id due : Nat) (pool : List String)
    (h : r.timers = [{ id := id, due := due, period := none, cb := ReelCallback.start pool }]) :
    reelFire j r =
      if pool.length = 0 then
        { r with now := max r.now due, timers := [], display := some "—" }
      else
        { r with
          now := max r.now due,
          timers := [{ id := r.nextId, due := max r.now due + 80, period := some 80,
                       cb := ReelCallback.spin pool }],
          nextId := r.nextId + 1,
          intervalRef := some r.nextId } := by
  simp only [reelFire, reelNextTimer, h, reelRunCallback]
  split <;> simp

theorem reelFire_spin (j : Nat) (r : Reel) (id due p : Nat) (pool : List String)
    (h : r.timers = [{ id := id, due := due, period := some p, cb := ReelCallback.spin pool }]) :
    reelFire j r =
      { r with
        now := max r.now due,
        timers := [{ id := id, due := due + p, period := some p, cb := ReelCallback.spin pool }],
        display := pool[j]? } := by
  simp [reelFire, reelNextTimer, h, reelRunCallback]

theorem reelFire_inv (j : Nat) (r : Reel) (h : ReelInv r) : ReelInv (reelFire j r) := by
  obtain ⟨h1, hst, hsp, htm⟩ := h
  rcases htm with he | ⟨t, ht, href, hstart, hspin⟩
  · rw [reelFire_empty j r he]
    exact ⟨h1, hst, hsp, Or.inl he⟩
  · rcases t with ⟨id, due, period, cb⟩
    cases cb with
    | start pool =>
      have hp : period = none := hstart pool rfl
      subst hp
      rw [reelFire_start j r id due pool ht]
      split
      · exact ⟨h1, hst, hsp, Or.inl rfl⟩
      · refine ⟨by simp, ?_, ?_, ?_⟩
        · intro k e
          have := hst k e
          simp only at this ⊢
          omega
        · intro k e
          simp only [Option.some.injEq] at e
          subst e
          simp only
          omega
        · right
          refine ⟨_, rfl, Or.inr rfl, ?_, ?_⟩
          · intro q e; cases e
          · intro q _; rfl
    | spin pool =>
      have hp : period = some 80 := hspin pool rfl
      subst hp
      rw [reelFire_spin j r id due 80 pool ht]
      refine ⟨h1, hst, hsp, ?_⟩
      right
      refine ⟨_, rfl, href, ?_, ?_⟩
      · intro q e; cases e
      · intro q _; rfl

theorem initialReel_inv : ReelInv initialReel := by
  refine ⟨by decide, ?_, ?_, Or.inl rfl⟩
  · intro id e; cases e
  · intro id e; cases e

theorem reelReachable_inv (r : Reel) (h : ReelReachable r) : ReelInv r := by
  induction h with
  | init => exact initialReel_inv
  | mount p =>
    rw [reelEffect_of_inv p initialReel initialReel_inv]
    exact reelInv_effect_result p initialReel initialReel_inv
  | update p _ ih =>
    rw [reelUpdate_of_inv p _ ih]
    exact reelInv_effect_result p _ ih
  | fire j _ ih => exact reelFire_inv j _ ih
  | elapse d _ _ ih => exact ⟨ih.1, ih.2.1, ih.2.2.1, ih.2.2.2⟩
  | foreignTimer _ ih =>
    obtain ⟨h1, hst, hsp, htm⟩ := ih
    refine ⟨by simp, ?_, ?_, htm⟩
    · intro id e
      have := hst id e
      simp only at this ⊢
      omega
    · intro id e
      have := hsp id e
      simp only at this ⊢
      omega

theorem reelTicks_spin (pool : List String) (id : Nat) :
    ∀ (js : List Nat) (r : Reel) (due : Nat),
      r.timers = [{ id := id, due := due, period := some 80, cb := ReelCallback.spin pool }] →
      r.now ≤ due →
      (reelTicks js r).timers =
        [{ id := id, due := due + 80 * js.length, period := some 80,
           cb := ReelCallback.spin pool }] ∧
      (reelTicks js r).now ≤ due + 80 * js.length := by
  intro js
  induction js with
  | nil => intro r due h hn; exact ⟨by simpa [reelTicks] using h, by simpa [reelTicks] using hn⟩
  | cons j js ih =>
    intro r due h hn
    have e := reelFire_spin j r id due 80 pool h
    have hmax : max r.now due = due := max_eq_right hn
    rw [hmax] at e
    have h2 := ih (reelFire j r) (due + 80) (by rw [e]) (by rw [e]; simp)
    have hl : due + 80 + 80 * js.length = due + 80 * (j :: js).length := by
      simp only [List.length_cons]; omega
    rw [hl] at h2
    simpa [reelTicks] using h2

theorem reelTicks_snoc (js : List Nat) (j : Nat) (r : Reel) :
    reelTicks (js ++ [j]) r = reelFire j (reelTicks js r) := by
  simp [reelTicks, List.foldl_append]

theorem slotProps_eq (st : State) (t k : Nat) (ht : t < 2) (hk : k < 2) :
    slotProps st t k = some
      { active := !decide ((t : Int) ≤ st.revealIndex),
        target := st.teams[t]?.bind (fun team => team[k]?),
        pool := st.players,
        delay := 100 + 160 * k } := by
  have hget : ∀ (o : Option (List String)) (i : Nat),
      (o.getD [])[i]? = o.bind (fun team => team[i]?) := by
    intro o i
    cases o <;> simp
  interval_cases t <;> interval_cases k <;>
    simp [slotProps, teamCards, TeamCard, hget]

theorem orPlaceholder_idem (o : Option String) :
    orPlaceholder (some (orPlaceholder o)) = orPlaceholder o := by
  cases o with
  | none => decide
  | some x =>
    by_cases hx : x = ""
    · subst hx; decide
    · simp [orPlaceholder, hx]

/-- C12 (what a slot displays): for team card `t < 2` and slot `k < 2` the reel gets the
delay `100 + 160 * k`, the roster as pool and `teams[t][k]` as target. After the render
that follows a change of its props, in any state the reel can be in: if the team is
revealed (`t ≤ revealIndex`), no reel timer is pending, firings change nothing, and the
text is the assigned name, or the placeholder when there is none; if the team is not
revealed, the display is kept and one timeout is pending, due after the delay. When it
fires with an empty pool the text is the placeholder and nothing is pending; with a pool
that is not empty the interval of 80 ms starts, tick number `m` comes `80 * m` ms after the
delay, and the display after a tick is the pool element its draw selects. -/
theorem slot_display (st : State) (t k : Nat) (ht : t < 2) (hk : k < 2) (r : Reel)
    (hr : ReelReachable r) :
    ∃ p, slotProps st t k = some p ∧
      p.delay = 100 + 160 * k ∧ p.pool = st.players ∧
      p.target = st.teams[t]?.bind (fun team => team[k]?) ∧
      ((t : Int) ≤ st.revealIndex →
        (reelUpdate p r).timers = [] ∧
        (∀ j, reelFire j (reelUpdate p r) = reelUpdate p r) ∧
        (∀ n, st.teams[t]?.bind (fun team => team[k]?) = some n → n ≠ "" →
          reelText (reelUpdate p r) = n) ∧
        (st.teams[t]?.bind (fun team => team[k]?) = none →
          reelText (reelUpdate p r) = "—")) ∧
      (st.revealIndex < (t : Int) →
        (reelUpdate p r).display = r.display ∧
        (reelUpdate p r).timers =
          [{ id := r.nextId, due := r.now + (100 + 160 * k), period := none,
             cb := ReelCallback.start st.players }] ∧
        (st.players = [] → ∀ j,
          (reelFire j (reelUpdate p r)).now = r.now + (100 + 160 * k) ∧
          reelText (reelFire j (reelUpdate p r)) = "—" ∧
          (reelFire j (reelUpdate p r)).timers = []) ∧
        (st.players ≠ [] → ∀ (j0 : Nat) (js : List Nat) (j : Nat), j < st.players.length →
          (reelTicks (js ++ [j]) (reelFire j0 (reelUpdate p r))).now
            = r.now + (100 + 160 * k) + 80 * (js.length + 1) ∧
          (reelTicks (js ++ [j]) (reelFire j0 (reelUpdate p r))).display = st.players[j]? ∧
          ∃ n ∈ st.players,
            (reelTicks (js ++ [j]) (reelFire j0 (reelUpdate p r))).display = some n)) := by
  have hinv := reelReachable_inv r hr
  refine ⟨_, slotProps_eq st t k ht hk, rfl, rfl, rfl, ?_, ?_⟩
  · intro hrev
    have hu := reelUpdate_of_inv
      { active := !decide ((t : Int) ≤ st.revealIndex),
        target := st.teams[t]?.bind (fun team => team[k]?),
        pool := st.players, delay := 100 + 160 * k } r hinv
    have hact : (!decide ((t : Int) ≤ st.revealIndex)) = false := by simp [hrev]
    rw [hact] at hu ⊢
    simp only [Bool.false_eq_true, if_false] at hu
    rw [hu]
    refine ⟨rfl, fun j => reelFire_empty j _ rfl, ?_, ?_⟩
    · intro n hn hne
      simp only [reelText, hn, orPlaceholder_idem]
      simp [orPlaceholder, hne]
    · intro hn
      simp only [reelText, hn, orPlaceholder_idem]
      rfl
  · intro hspin
    have hnot : ¬ (t : Int) ≤ st.revealIndex := by omega
    have hu := reelUpdate_of_inv
      { active := !decide ((t : Int) ≤ st.revealIndex),
        target := st.teams[t]?.bind (fun team => team[k]?),
        pool := st.players, delay := 100 + 160 * k } r hinv
    have hact : (!decide ((t : Int) ≤ st.revealIndex)) = true := by simp [hnot]
    rw [hact] at hu ⊢
    simp only [if_true] at hu
    rw [hu]
    have hstart : ∀ j0, reelFire j0
        { r with
          intervalRef := none,
          timers := [{ id := r.nextId, due := r.now + (100 + 160 * k), period := none,
                       cb := ReelCallback.start st.players }],
          nextId := r.nextId + 1,
          timeoutRef := some r.nextId } = _ :=
      fun j0 => reelFire_start j0 _ r.nextId (r.now + (100 + 160 * k)) st.players rfl
    have hmax : max r.now (r.now + (100 + 160 * k)) = r.now + (100 + 160 * k) :=
      max_eq_right (Nat.le_add_right _ _)
    refine ⟨rfl, rfl, ?_, ?_⟩
    · intro hempty j
      rw [hstart j]
      simp [hempty, hmax, reelText, orPlaceholder]
    · intro hne j0 js j hj
      have hlen : ¬ st.players.length = 0 := by
        intro e
        exact hne (List.length_eq_zero.1 e)
      have key : ∀ R : Reel,
          R.timers = [{ id := r.nextId + 1, due := r.now + (100 + 160 * k) + 80,
                        period := some 80, cb := ReelCallback.spin st.players }] →
          R.now ≤ r.now + (100 + 160 * k) + 80 →
          (reelTicks (js ++ [j]) R).now = r.now + (100 + 160 * k) + 80 * (js.length + 1) ∧
          (reelTicks (js ++ [j]) R).display = st.players[j]? := by
        intro R h1 h2
        rw [reelTicks_snoc]
        obtain ⟨htm, hnow⟩ := reelTicks_spin st.players (r.nextId + 1) js R
          (r.now + (100 + 160 * k) + 80) h1 h2
        have e := reelFire_spin j _ (r.nextId + 1) _ 80 st.players htm
        rw [max_eq_right hnow] at e
        rw [e]
        exact ⟨by simp only; omega, rfl⟩
      rw [hstart j0]
      simp only [hlen, if_false, hmax]
      suffices hs : _ ∧ _ from
        ⟨hs.1, hs.2, st.players[j], List.getElem_mem _,
          hs.2.trans (List.getElem?_eq_getElem hj)⟩
      refine key _ ?_ ?_
      · rfl
      · exact Nat.le_add_right _ _

/-- Witness of C12: in the middle of the reveal of the default roster (team 0 revealed,
team 1 not), slot 1 of card 0 shows its assigned name, and slot 0 of card 1, after its
timeout and two ticks, shows the pool element of the last draw. -/
theorem slot_display_witness :
    ReelReachable (reelEffect { active := true, target := none, pool := [], delay := 100 }
      initialReel) ∧
    (∃ p, slotProps midReveal 0 1 = some p ∧ p.delay = 260 ∧
      reelText (reelUpdate p (reelEffect
        { active := true, target := none, pool := [], delay := 100 } initialReel))
        = "Amalie") ∧
    (∃ p, slotProps midReveal 1 0 = some p ∧ p.delay = 100 ∧
      (reelTicks ([3] ++ [2]) (reelFire 0 (reelUpdate p (reelEffect
        { active := true, target := none, pool := [], delay := 100 } initialReel)))).display
        = some "Amalie") := by
  refine ⟨ReelReachable.mount _, ?_, ?_⟩
  · obtain ⟨p, h1, h2, _, _, hrev, _⟩ :=
      slot_display midReveal 0 1 (by decide) (by decide) _ (ReelReachable.mount
        { active := true, target := none, pool := [], delay := 100 })
    exact ⟨p, h1, h2, (hrev (by decide)).2.2.1 "Amalie" (by decide) (by decide)⟩
  · obtain ⟨p, h1, h2, _, _, _, hspin⟩ :=
      slot_display midReveal 1 0 (by decide) (by decide) _ (ReelReachable.mount
        { active := true, target := none, pool := [], delay := 100 })
    exact ⟨p, h1, h2,
      ((hspin (by decide)).2.2.2 (by decide) 0 [3] 2 (by decide)).2.1⟩

end Foosball
